import Mathlib

set_option maxHeartbeats 1000000

/-!
Verification of the sikai-skills repository's queue store, capture retry
protocol, knowledge-base append, batch flow, chunking, categorizer and
summarizer.  Python strings are modelled as lists of characters; each
Python function used by the properties is embedded as an executable Lean
definition translated directly from the source.
-/

/-- Python strings are modelled as lists of unicode characters. -/
abbrev PyStr := List Char

/-- Embed a Lean string literal into the model. -/
def pys (s : String) : PyStr := s.data

/-- The line-boundary characters of Python `str.splitlines`:
`\n`, `\v`, `\f`, `\r`, the file/group/record separators
`\x1c`-`\x1e`, `\x85` (NEL), `\u2028` (LS) and `\u2029` (PS). -/
def pyLB (c : Char) : Bool :=
  c.toNat == 10 || c.toNat == 11 || c.toNat == 12 || c.toNat == 13 ||
  c.toNat == 28 || c.toNat == 29 || c.toNat == 30 || c.toNat == 133 ||
  c.toNat == 8232 || c.toNat == 8233

/-- Python `str.isspace`, the whitespace set of `str.strip()` and
`str.split()`: `\t\n\v\f\r`, space, `\x1c`-`\x1f`, `\x85`,
`\xa0`, `\u1680`, `\u2000`-`\u200a`, `\u2028`, `\u2029`,
`\u202f`, `\u205f` and `\u3000`. -/
def pyWS (c : Char) : Bool :=
  (Nat.ble 9 c.toNat && Nat.ble c.toNat 13) || c.toNat == 32 ||
  (Nat.ble 28 c.toNat && Nat.ble c.toNat 31) ||
  c.toNat == 133 || c.toNat == 160 || c.toNat == 5760 ||
  (Nat.ble 8192 c.toNat && Nat.ble c.toNat 8202) ||
  c.toNat == 8232 || c.toNat == 8233 || c.toNat == 8239 ||
  c.toNat == 8287 || c.toNat == 12288

/-- A string of ASCII characters.  On such strings the model's integer
and digit scanning coincide with Python's `int()` and `\d`, which on
non-ASCII input additionally accept the other Unicode decimal digits. -/
def asciiStr (s : PyStr) : Prop := ∀ c ∈ s, c.toNat < 128

instance (s : PyStr) : Decidable (asciiStr s) := by
  unfold asciiStr
  infer_instance

/-- Python `s.startswith(pat)`: `startsWithPy pat s` is true when `pat`
is an initial segment of `s`. -/
def startsWithPy : PyStr → PyStr → Bool
  | [], _ => true
  | _ :: _, [] => false
  | p :: ps, c :: cs => p == c && startsWithPy ps cs

/-- Python `pat in s`: substring containment. -/
def inPy (pat : PyStr) : PyStr → Bool
  | [] => pat.isEmpty
  | c :: rest => startsWithPy pat (c :: rest) || inPy pat rest

/-- Number of positions of `s` at which `pat` occurs as a substring. -/
def countSub (pat : PyStr) : PyStr → Nat
  | [] => if pat.isEmpty then 1 else 0
  | c :: rest => (if startsWithPy pat (c :: rest) then 1 else 0) + countSub pat rest

/-- Python `s.index(ch)` for a single character: index of the first
occurrence (length of `s` when absent; the code only calls it guarded by
an `in` check). -/
def firstIdx (ch : Char) : PyStr → Nat
  | [] => 0
  | c :: rest => if c == ch then 0 else firstIdx ch rest + 1

/-- Python `s.strip()`: remove whitespace (`pyWS`) from both ends. -/
def stripPy (s : PyStr) : PyStr :=
  ((s.dropWhile pyWS).reverse.dropWhile pyWS).reverse

/-- Auxiliary for `splitWs`; `acc` holds the current token reversed. -/
def splitWsAux : PyStr → PyStr → List PyStr
  | [], acc => if acc.isEmpty then [] else [acc.reverse]
  | c :: rest, acc =>
    if pyWS c then
      if acc.isEmpty then splitWsAux rest [] else acc.reverse :: splitWsAux rest []
    else splitWsAux rest (c :: acc)

/-- Python `s.split()` with no argument: split on whitespace runs,
dropping empty tokens. -/
def splitWs (s : PyStr) : List PyStr := splitWsAux s []

/-- Python `s.split(":", 1)`: text before the first colon, and the rest
after it when a colon is present. -/
def splitColon1 : PyStr → PyStr × Option PyStr
  | [] => ([], none)
  | c :: rest =>
    if c == ':' then ([], some rest)
    else
      let r := splitColon1 rest
      (c :: r.1, r.2)

/-- Auxiliary for `splitlinesPy`; `acc` holds the current line reversed.
Line boundaries are `\n`, `\r\n`, `\r` and the remaining `pyLB`
characters (each a one-character boundary). -/
def splitlinesAux : PyStr → PyStr → List PyStr
  | [], acc => if acc.isEmpty then [] else [acc.reverse]
  | '\n' :: rest, acc => acc.reverse :: splitlinesAux rest []
  | '\r' :: '\n' :: rest, acc => acc.reverse :: splitlinesAux rest []
  | '\r' :: rest, acc => acc.reverse :: splitlinesAux rest []
  | c :: rest, acc =>
    if pyLB c then acc.reverse :: splitlinesAux rest []
    else splitlinesAux rest (c :: acc)

/-- Python `s.splitlines()`: split at line boundaries; a trailing
terminator produces no empty final line. -/
def splitlinesPy (s : PyStr) : List PyStr := splitlinesAux s []

/-- Python `"\n".join(lines)`. -/
def joinNl : List PyStr → PyStr
  | [] => []
  | [l] => l
  | l :: ls => l ++ '\n' :: joinNl ls

/-- Decimal digit character for a value below ten. -/
def digitChar10 (d : Nat) : Char :=
  if d = 0 then '0'
  else if d = 1 then '1'
  else if d = 2 then '2'
  else if d = 3 then '3'
  else if d = 4 then '4'
  else if d = 5 then '5'
  else if d = 6 then '6'
  else if d = 7 then '7'
  else if d = 8 then '8'
  else '9'

/-- Numeric value of a decimal digit character. -/
def digitVal (c : Char) : Nat := c.toNat - 48

/-- Value of a string of decimal digit characters. -/
def digitsVal (s : PyStr) : Nat := s.foldl (fun a c => 10 * a + digitVal c) 0

/-- Fuel-driven digit expansion (the fuel always suffices when it
exceeds the number). -/
def natToDigitsAux : Nat → Nat → PyStr
  | 0, _ => []
  | fuel + 1, n =>
    if n < 10 then [digitChar10 n]
    else natToDigitsAux fuel (n / 10) ++ [digitChar10 (n % 10)]

/-- Decimal digit string of a natural number (most significant first). -/
def natToDigits (n : Nat) : PyStr := natToDigitsAux (n + 1) n

/-- Python `f"{n:03d}"`: sign, then zero padding to overall width 3,
then the decimal magnitude. -/
def format03d (n : Int) : PyStr :=
  let mag := natToDigits n.natAbs
  let sign : PyStr := if n < 0 then ['-'] else []
  sign ++ List.replicate (3 - (sign.length + mag.length)) '0' ++ mag

/-- Split a string at underscore characters. -/
def splitUnderscore : PyStr → List PyStr
  | [] => [[]]
  | '_' :: rest => [] :: splitUnderscore rest
  | c :: rest =>
    match splitUnderscore rest with
    | [] => [[c]]
    | g :: gs => (c :: g) :: gs

/-- Digit-group validity for Python integer literals: underscores may
appear only singly between decimal digits. -/
def digitsOkPy (s : PyStr) : Bool :=
  (splitUnderscore s).all fun g => !g.isEmpty && g.all Char.isDigit

/-- Remove underscore separators. -/
def removeUnderscores (s : PyStr) : PyStr := s.filter (fun c => c ≠ '_')

/-- Python `int(s)`: strip whitespace, optional sign, then decimal
digits with optional single underscore separators; `none` models the
`ValueError` raised otherwise.  Digits are modelled by `0`-`9`, which
agrees with Python on ASCII tokens (the abort theorem quantifies over
`asciiStr` lines); Python's `int()` additionally accepts the other
Unicode decimal digits. -/
def parseIntPy (s : PyStr) : Option Int :=
  match stripPy s with
  | '+' :: ds => if digitsOkPy ds then some (digitsVal (removeUnderscores ds)) else none
  | '-' :: ds => if digitsOkPy ds then some (-(digitsVal (removeUnderscores ds) : Int)) else none
  | ds => if digitsOkPy ds then some (digitsVal (removeUnderscores ds)) else none

/-- Auxiliary for `collapseWs`: the flag records whether the previous
character was whitespace (inside a run already replaced). -/
def collapseWsAux : PyStr → Bool → PyStr
  | [], _ => []
  | c :: rest, inRun =>
    if pyWS c then
      if inRun then collapseWsAux rest true else ' ' :: collapseWsAux rest true
    else c :: collapseWsAux rest false

/-- Python `re.sub(r"\s+", " ", s)`: replace each maximal whitespace
run by a single space. -/
def collapseWs (s : PyStr) : PyStr := collapseWsAux s false

/-- Python `s.lower()` (ASCII letters; the keyword sets used by the
categorizer contain only ASCII and CJK characters, which agree). -/
def toLowerPy (s : PyStr) : PyStr := s.map Char.toLower

/-!
Queue store — `src/x-ops/scripts/queue_io.py`.
-/

/-- One queue item (`QueueItem` dataclass in `queue_io.py`). -/
structure QueueItem where
  item_id : Int
  status : PyStr
  type : PyStr
  lang : PyStr
  source : PyStr
  note : PyStr
  text : PyStr
deriving Repr, DecidableEq

/-- Parser state of `parse_queue_md`'s line loop. -/
structure PState where
  header : List PyStr
  items : List QueueItem
  current : Option QueueItem
  in_text : Bool
deriving Repr, DecidableEq

/-- The nested `flush_current` helper of `parse_queue_md`. -/
def flushCurrent (st : PState) : PState :=
  match st.current with
  | none => st
  | some c => { st with items := st.items ++ [c], current := none }

/-- Does a line start a new item (`line.startswith("## Item ")`)? -/
def markerLine (line : PyStr) : Bool := startsWithPy (pys "## Item ") line

/-- Status extraction of `parse_queue_md`: default `pending`, else the
stripped text between the first `[` and the first `]`. -/
def parseMarkerStatus (line : PyStr) : PyStr :=
  if inPy (pys "[") line && inPy (pys "]") line then
    stripPy ((line.drop (firstIdx '[' line + 1)).take
      (firstIdx ']' line - (firstIdx '[' line + 1)))
  else pys "pending"

/-- Text accumulation of the body-capture branch: Python
`current.text += "\n" + line if current.text else line`. -/
def accText (t line : PyStr) : PyStr :=
  if t.isEmpty then line else t ++ '\n' :: line

/-- One iteration of `parse_queue_md`'s `for line in lines` loop;
`none` models the uncaught `ValueError`/`IndexError` abort on a
malformed `## Item ` line. -/
def pstep (st : PState) (line : PyStr) : Option PState :=
  if markerLine line then
    let st' := flushCurrent st
    match (splitWs line).get? 2 with
    | none => none
    | some tok =>
      match parseIntPy tok with
      | none => none
      | some n =>
        some { st' with in_text := false, current := some ⟨n, parseMarkerStatus line, [], [], [], [], []⟩ }
  else
    match st.current with
    | none => some { st with header := st.header ++ [line] }
    | some cur =>
      if startsWithPy (pys "text:") line then
        some { st with in_text := true, current := some { cur with text := [] } }
      else if st.in_text then
        some { st with current := some { cur with text := accText cur.text line } }
      else
        match splitColon1 line with
        | (_, none) => some st
        | (k, some v) =>
          let key := stripPy k
          let value := stripPy v
          if key = pys "type" then some { st with current := some { cur with type := value } }
          else if key = pys "lang" then some { st with current := some { cur with lang := value } }
          else if key = pys "source" then some { st with current := some { cur with source := value } }
          else if key = pys "note" then some { st with current := some { cur with note := value } }
          else some st

/-- Run the parse loop over a list of lines. -/
def foldParse : PState → List PyStr → Option PState
  | st, [] => some st
  | st, l :: ls =>
    match pstep st l with
    | none => none
    | some st' => foldParse st' ls

/-- `parse_queue_md` on an already-split line list: fold the loop, then
flush the last open item. -/
def parse_queue_lines (lines : List PyStr) : Option (List PyStr × List QueueItem) :=
  match foldParse ⟨[], [], none, false⟩ lines with
  | none => none
  | some st =>
    let st' := flushCurrent st
    some (st'.header, st'.items)

/-- `parse_queue_md` on full file content (the file is read and split
with `splitlines`). -/
def parse_queue_md (content : PyStr) : Option (List PyStr × List QueueItem) :=
  parse_queue_lines (splitlinesPy content)

/-- The lines `render_queue_md` emits for one item: a blank separator,
the marker, the four key lines, `text:`, then the body's lines. -/
def itemLines (it : QueueItem) : List PyStr :=
  [[],
   pys "## Item " ++ format03d it.item_id ++ pys " [" ++ it.status ++ pys "]",
   pys "type: " ++ it.type,
   pys "lang: " ++ it.lang,
   pys "source: " ++ it.source,
   pys "note: " ++ it.note,
   pys "text:"] ++ splitlinesPy it.text

/-- The full line list `render_queue_md` builds before joining. -/
def render_queue_lines (header : List PyStr) (items : List QueueItem) : List PyStr :=
  (if header.isEmpty then [pys "# X Queue"] else header)
    ++ (items.map itemLines).flatten ++ [[]]

/-- `render_queue_md`: the built lines joined with newlines. -/
def render_queue_md (header : List PyStr) (items : List QueueItem) : PyStr :=
  joinNl (render_queue_lines header items)

/-!
Chunking — `chunk_text` in
`src/skills/x-batch-notes-notion-sync/scripts/batch_x_learning.py`.
-/

/-- The `for line in text.splitlines()` loop of `chunk_text`, with the
final flush of a nonempty buffer: arguments are remaining lines, the
current buffer, the running size (each line counted as length + 1) and
the cap. -/
def chunkLoop (max_chars : Nat) : List PyStr → List PyStr → Nat → List PyStr
  | [], buf, _ => if buf = [] then [] else [joinNl buf]
  | l :: ls, buf, size =>
    if size + (l.length + 1) > max_chars ∧ buf ≠ [] then
      joinNl buf :: chunkLoop max_chars ls [l] (l.length + 1)
    else
      chunkLoop max_chars ls (buf ++ [l]) (size + (l.length + 1))

/-- `chunk_text(text, max_chars=1800)`. -/
def chunk_text (text : PyStr) (max_chars : Nat := 1800) : List PyStr :=
  chunkLoop max_chars (splitlinesPy text) [] 0

/-!
Capture retry protocol — `_find_target_article_with_retries` in
`src/x-ops/scripts/read_x_post.py`.  The page is abstracted by a
predicate `present : Nat → Bool` telling whether `_find_target_article`
succeeds after a given number of scroll operations.
-/

/-- Outcome of the retry loop, carrying the number of scroll operations
performed: `found` models returning the article, `notFound` models
re-raising the last `RuntimeError` ("target not found"). -/
inductive FindResult where
  | found : Nat → FindResult
  | notFound : Nat → FindResult
deriving Repr, DecidableEq

/-- The `for i in range(attempts)` loop of
`_find_target_article_with_retries`: `k` is the number of attempts
remaining, `s` the scrolls performed so far.  On failure at the last
attempt the loop breaks without scrolling and the last error is
re-raised. -/
def findRetryAux (present : Nat → Bool) : Nat → Nat → FindResult
  | 0, s => FindResult.notFound s
  | k + 1, s =>
    if present s then FindResult.found s
    else if k = 0 then FindResult.notFound s
    else findRetryAux present k (s + 1)

/-- `_find_target_article_with_retries` with `attempts = 8`. -/
def find_target_article_with_retries (present : Nat → Bool) : FindResult :=
  findRetryAux present 8 0

/-!
Headless-to-headed fallback — `_capture_single` in
`src/skills/x-link-capture-analyze/scripts/run_x_capture_analyze.py`.
The child-process run is abstracted by `run : Bool → Except PyStr PyStr`
mapping the headless flag to the run's outcome.
-/

/-- Result record of `_capture_single` (capture mode and output tail;
`err_headless` is the recorded headless error on the fallback path). -/
structure CapResult where
  mode : PyStr
  out : PyStr
  err_headless : Option PyStr
deriving Repr, DecidableEq

/-- `_capture_single`, returning its result together with the list of
headless-flag values of the run invocations it performed (in order). -/
def _capture_single (run : Bool → Except PyStr PyStr) (headless : Bool) :
    Except PyStr CapResult × List Bool :=
  match run headless with
  | Except.ok out =>
    (Except.ok ⟨if headless then pys "headless" else pys "headed", out, none⟩, [headless])
  | Except.error e =>
    if headless then
      match run false with
      | Except.ok out2 => (Except.ok ⟨pys "headed-fallback", out2, some e⟩, [true, false])
      | Except.error e2 => (Except.error e2, [true, false])
    else (Except.error e, [headless])

/-!
Knowledge-base append — `_append_kb` in
`src/x-ops/scripts/learn_from_capture.py`.  The knowledge-base file is
modelled as `Option PyStr` (contents, or `none` when absent).
-/

/-- The dedup marker string `f"<!-- status_id:{sid} -->"`. -/
def kbMarker (sid : PyStr) : PyStr :=
  pys "<!-- status_id:" ++ sid ++ pys " -->"

/-- The entry lines `_append_kb` builds (marker, heading, fields, the
optional first five points, trailing blank line). -/
def kbEntryLines (sid url author learned : PyStr) (points : List PyStr) : List PyStr :=
  [kbMarker sid,
   pys "## " ++ sid,
   pys "- source_url: " ++ url,
   pys "- author: " ++ author,
   pys "- learned_note: " ++ learned]
  ++ (if points.isEmpty then []
      else pys "- top_points:" :: (points.take 5).map (fun p => pys "  - " ++ p))
  ++ [[]]

/-- `_append_kb`: returns whether an entry was appended, and the file
contents afterwards.  An existing file containing the marker is returned
untouched; an absent file is first seeded with the KB header; otherwise
the newline-joined entry plus a final newline is appended. -/
def _append_kb (kb : Option PyStr) (sid url author learned : PyStr)
    (points : List PyStr) : Bool × PyStr :=
  match kb with
  | some existing =>
    if inPy (kbMarker sid) existing then (false, existing)
    else (true, existing ++ joinNl (kbEntryLines sid url author learned points) ++ ['\n'])
  | none =>
    (true, pys "# X Lessons KB\n\n" ++ joinNl (kbEntryLines sid url author learned points) ++ ['\n'])

/-- Iterate `_append_kb` `n` times with the same arguments, returning
the file state (as `Option PyStr`) after the runs. -/
def appendKbTimes (kb : Option PyStr) (sid url author learned : PyStr)
    (points : List PyStr) : Nat → Option PyStr
  | 0 => kb
  | n + 1 => some (_append_kb (appendKbTimes kb sid url author learned points n)
      sid url author learned points).2

/-!
Batch flow — `src/skills/x-batch-notes-notion-sync/scripts/batch_x_learning.py`:
`extract_status_id`, `categorize`, `summarize`, and the per-link loop of
`main` with its partial-failure policy.
-/

/-- `extract_status_id`: first match of the regex `/status/(\d+)` —
scan left to right for the literal `/status/` followed by at least one
digit, capturing the maximal digit run.  `\d` is modelled by the
decimal digits `0`-`9`, which agrees with Python on the ASCII links the
batch theorems quantify over (`asciiStr`); Python's `\d` additionally
matches the other Unicode decimal digits. -/
def extract_status_id : PyStr → PyStr
  | [] => []
  | c :: rest =>
    if startsWithPy (pys "/status/") (c :: rest) then
      let d := ((c :: rest).drop 8).takeWhile Char.isDigit
      if d.isEmpty then extract_status_id rest else d
    else extract_status_id rest

/-- `CATEGORY_RULES` in insertion order. -/
def CATEGORY_RULES : List (PyStr × List PyStr) :=
  [(pys "install-debug",
    [pys "安装", pys "配置", pys "报错", pys "debug", pys "error", pys "setup",
     pys "deploy", pys "运行", pys "启动"]),
   (pys "architecture-principles",
    [pys "原理", pys "架构", pys "architecture", pys "protocol", pys "cdp",
     pys "机制", pys "design"]),
   (pys "security-risk",
    [pys "安全", pys "漏洞", pys "risk", pys "风控", pys "暴露", pys "认证",
     pys "权限", pys "攻击"]),
   (pys "growth-content",
    [pys "爆款", pys "内容", pys "运营", pys "流量", pys "选题", pys "结构",
     pys "转化", pys "自媒体"]),
   (pys "tools-release",
    [pys "发布", pys "更新", pys "release", pys "new", pys "模型", pys "功能",
     pys "版本"])]

/-- `categorize`: first category (in rule order) one of whose keywords
occurs in the lowercased text, else `uncategorized`. -/
def categorize (text : PyStr) : PyStr :=
  let low := toLowerPy text
  match CATEGORY_RULES.find? (fun r => r.2.any fun k => inPy (toLowerPy k) low) with
  | some r => r.1
  | none => pys "uncategorized"

/-- `summarize(text, limit=120)`: collapse whitespace runs, strip, and
truncate to `limit - 1` characters plus an ellipsis when too long. -/
def summarize (text : PyStr) (limit : Nat := 120) : PyStr :=
  let t := stripPy (collapseWs text)
  if t.length ≤ limit then t else t.take (limit - 1) ++ pys "…"

/-- Relevant fields of one capture JSON (`data["main"]` plus
`data["target_status_id"]`). -/
structure Capture where
  target_status_id : PyStr
  author : PyStr
  text : PyStr
deriving Repr, DecidableEq

/-- One summary entry of the batch loop (`items.append({...})`). -/
structure BatchItem where
  status_id : PyStr
  url : PyStr
  author : PyStr
  summary : PyStr
  category : PyStr
deriving Repr, DecidableEq

/-- One iteration of `main`'s `for link in links` loop with
`fetch = False`: the capture store is abstracted by
`fs : PyStr → Option Capture` mapping a status id to the parsed capture
file when it exists.  `Except.error` carries the string appended to
`errors`. -/
def processLink (fs : PyStr → Option Capture) (link : PyStr) :
    Except PyStr BatchItem :=
  let sid := extract_status_id link
  if sid.isEmpty then
    Except.error (link ++ pys ": Invalid X link: " ++ link)
  else
    match fs sid with
    | none => Except.error (pys "missing capture: " ++ link)
    | some data =>
      Except.ok
        { status_id := if data.target_status_id.isEmpty then sid else data.target_status_id,
          url := link,
          author := data.author,
          summary := summarize data.text,
          category := categorize data.text }

/-- The whole per-link loop: failures are appended to `errors`, the
remaining links are still processed. -/
def runBatch (fs : PyStr → Option Capture) : List PyStr → List BatchItem × List PyStr
  | [] => ([], [])
  | link :: rest =>
    let r := runBatch fs rest
    match processLink fs link with
    | Except.ok it => (it :: r.1, r.2)
    | Except.error e => (r.1, e :: r.2)

/-- The fields of the final JSON summary relevant to the claims. -/
structure BatchSummary where
  links : Nat
  processed : Nat
  errors : List PyStr
deriving Repr, DecidableEq

/-- The result object printed by `main`. -/
def batchSummary (fs : PyStr → Option Capture) (links : List PyStr) : BatchSummary :=
  let r := runBatch fs links
  { links := links.length, processed := r.1.length, errors := r.2 }

/-!
Supporting lemmas and claim theorems.
-/

/-- When the target is absent at every scroll count the loop can reach,
the retry loop exhausts its attempts and reports the last failure,
having scrolled once per non-final attempt. -/
theorem findRetryAux_absent (present : Nat → Bool) :
    ∀ k s, (∀ j, j ≤ s + k → present j = false) →
      findRetryAux present (k + 1) s = FindResult.notFound (s + k) := by
  intro k
  induction k with
  | zero =>
    intro s h
    simp [findRetryAux, h s (by omega)]
  | succ k ih =>
    intro s h
    have hs : present s = false := h s (by omega)
    have h2 := ih (s + 1) (fun j hj => h j (by omega))
    have harith : s + (k + 1) = s + 1 + k := by omega
    rw [findRetryAux, harith]
    simp [hs, h2]

/-- C3: in a feed where the target is absent for the first `N` scroll
attempts and present afterwards, with `N < 8` the retry loop returns the
target having performed exactly `N` scrolls; with `N ≥ 8` it exhausts
its 8 attempts and surfaces the "target not found" error. -/
theorem C3_capture_retry (N : Nat) :
    (N < 8 →
      find_target_article_with_retries (fun s => decide (N ≤ s)) = FindResult.found N) ∧
    (8 ≤ N →
      find_target_article_with_retries (fun s => decide (N ≤ s)) = FindResult.notFound 7) := by
  constructor
  · intro h
    interval_cases N <;> rfl
  · intro h
    have := findRetryAux_absent (fun s => decide (N ≤ s)) 7 0
      (fun j hj => decide_eq_false (by omega))
    simpa [find_target_article_with_retries] using this

/-- Witness for C3 at `N = 3` and `N = 9`. -/
theorem C3_capture_retry_witness :
    (3 < 8 ∧
      find_target_article_with_retries (fun s => decide (3 ≤ s)) = FindResult.found 3) ∧
    (8 ≤ 9 ∧
      find_target_article_with_retries (fun s => decide (9 ≤ s)) = FindResult.notFound 7) :=
  ⟨⟨by decide, (C3_capture_retry 3).1 (by decide)⟩,
   ⟨by decide, (C3_capture_retry 9).2 (by decide)⟩⟩

/-- C4: a capture is retried (in headed mode) exactly when the original
attempt was headless and failed; at most one retry ever happens; a
failure in an originally-headed capture propagates with no retry; and a
failure of the headed retry itself propagates. -/
theorem C4_headless_fallback (run : Bool → Except PyStr PyStr) (headless : Bool) :
    ((_capture_single run headless).2 = [true, false] ↔
      headless = true ∧ ∃ e, run true = Except.error e) ∧
    ((_capture_single run headless).2 = [true, false] ∨
      (_capture_single run headless).2 = [headless]) ∧
    (∀ e, headless = false → run false = Except.error e →
      (_capture_single run headless).1 = Except.error e) ∧
    (∀ e e2, headless = true → run true = Except.error e → run false = Except.error e2 →
      (_capture_single run headless).1 = Except.error e2) := by
  cases headless
  · cases hf : run false <;> simp [_capture_single, hf]
  · cases ht : run true
    · cases hf : run false <;> simp [_capture_single, ht, hf]
    · simp [_capture_single, ht]

/-- A run oracle that fails in both modes, for the C4 witness. -/
def runFailsBoth : Bool → Except PyStr PyStr :=
  fun b => if b then Except.error (pys "feed error") else Except.error (pys "headed error")

/-- Witness for C4: with a headless original attempt and both runs
failing, the headed retry happens and its error is terminal. -/
theorem C4_headless_fallback_witness :
    (_capture_single runFailsBoth true).2 = [true, false] ∧
    (_capture_single runFailsBoth true).1 = Except.error (pys "headed error") :=
  ⟨(C4_headless_fallback runFailsBoth true).1.mpr ⟨rfl, ⟨pys "feed error", rfl⟩⟩,
   (C4_headless_fallback runFailsBoth true).2.2.2 (pys "feed error") (pys "headed error")
     rfl rfl rfl⟩

/-- C10: when the knowledge-base file exists and already contains the
marker for the status id, `_append_kb` returns `False` and the contents
are unchanged (the function returns before any write). -/
theorem C10_kb_duplicate_noop (c sid url author learned : PyStr) (points : List PyStr)
    (h : inPy (kbMarker sid) c = true) :
    _append_kb (some c) sid url author learned points = (false, c) := by
  simp [_append_kb, h]

/-- Witness for C10: a file consisting of exactly the marker for
status id `123`. -/
theorem C10_kb_duplicate_noop_witness :
    inPy (kbMarker (pys "123")) (kbMarker (pys "123")) = true ∧
    _append_kb (some (kbMarker (pys "123"))) (pys "123") (pys "u") (pys "a") (pys "l") []
      = (false, kbMarker (pys "123")) :=
  ⟨by decide,
   C10_kb_duplicate_noop (kbMarker (pys "123")) (pys "123") (pys "u") (pys "a") (pys "l") []
     (by decide)⟩

/-- Modelled from the claim's wording (for comparison with the code):
the raw substring of the marker line strictly between the first `[` and
the first `]`, without stripping. -/
def claimStatus (line : PyStr) : PyStr :=
  (line.drop (firstIdx '[' line + 1)).take (firstIdx ']' line - (firstIdx '[' line + 1))

/-- Counterexample for C7: on the marker line `## Item 007 [ x ]` the
code strips the bracketed substring and yields status `x`, not the raw
between-brackets substring ` x `. -/
theorem C7_marker_counterexample :
    parse_queue_lines [pys "## Item 007 [ x ]"]
      = some ([], [⟨7, pys "x", [], [], [], [], []⟩]) ∧
    pys "x" ≠ claimStatus (pys "## Item 007 [ x ]") := by
  constructor
  · decide
  · decide

/-- C7 (amended): `## Item 007 [drafted]` parses to `item_id = 7`,
`status = "drafted"`; a marker with no brackets defaults to `pending`;
and in general the status is the substring between the first `[` and
the first `]`, stripped of surrounding whitespace. -/
theorem C7_marker_parsing :
    parse_queue_lines [pys "## Item 007 [drafted]"]
      = some ([], [⟨7, pys "drafted", [], [], [], [], []⟩]) ∧
    parse_queue_lines [pys "## Item 007"]
      = some ([], [⟨7, pys "pending", [], [], [], [], []⟩]) ∧
    ∀ line, inPy (pys "[") line = true → inPy (pys "]") line = true →
      parseMarkerStatus line = stripPy (claimStatus line) := by
  refine ⟨by decide, by decide, ?_⟩
  intro line h1 h2
  simp [parseMarkerStatus, h1, h2, claimStatus]

/-- Witness for C7's general status clause at a concrete marker line. -/
theorem C7_marker_parsing_witness :
    inPy (pys "[") (pys "## Item 001 [ a b ]") = true ∧
    inPy (pys "]") (pys "## Item 001 [ a b ]") = true ∧
    parseMarkerStatus (pys "## Item 001 [ a b ]")
      = stripPy (claimStatus (pys "## Item 001 [ a b ]")) :=
  ⟨by decide, by decide,
   C7_marker_parsing.2.2 (pys "## Item 001 [ a b ]") (by decide) (by decide)⟩

/-- A marker line whose positional id token is missing or not a valid
integer makes the corresponding loop iteration abort. -/
theorem pstep_bad_marker (st : PState) (l : PyStr)
    (hmark : markerLine l = true)
    (hbad : Option.bind ((splitWs l).get? 2) parseIntPy = none) :
    pstep st l = none := by
  unfold pstep
  rw [hmark]
  simp only [if_true]
  cases htok : (splitWs l).get? 2 with
  | none => simp
  | some tok =>
    rw [htok] at hbad
    simp only [Option.bind] at hbad
    simp [hbad]

/-- Once any line of the input is a malformed marker, the whole fold
aborts, whatever happened before it. -/
theorem foldParse_bad_marker (lines : List PyStr) (l : PyStr)
    (hmem : l ∈ lines) (hmark : markerLine l = true)
    (hbad : Option.bind ((splitWs l).get? 2) parseIntPy = none) :
    ∀ st, foldParse st lines = none := by
  induction lines with
  | nil => cases hmem
  | cons a rest ih =>
    intro st
    rcases List.mem_cons.mp hmem with rfl | hmem'
    · simp [foldParse, pstep_bad_marker st l hmark hbad]
    · cases hstep : pstep st a with
      | none => simp [foldParse, hstep]
      | some st' => simp [foldParse, hstep, ih hmem' st']

/-- C8: an input containing an ASCII line that starts with `## Item `
whose id token is missing or not a valid integer aborts the whole
parse; no partial item list is returned.  The line is restricted to
ASCII so that the model's integer parse coincides with Python's
`int()`, which additionally accepts non-ASCII Unicode decimal digits. -/
theorem C8_malformed_marker_aborts (lines : List PyStr) (l : PyStr)
    (hmem : l ∈ lines) (hmark : markerLine l = true) (_hascii : asciiStr l)
    (hbad : Option.bind ((splitWs l).get? 2) parseIntPy = none) :
    parse_queue_lines lines = none := by
  unfold parse_queue_lines
  rw [foldParse_bad_marker lines l hmem hmark hbad]

/-- Witness for C8: a file whose only marker line is `## Item abc`. -/
theorem C8_malformed_marker_aborts_witness :
    (pys "## Item abc") ∈ [pys "hdr", pys "## Item abc"] ∧
    markerLine (pys "## Item abc") = true ∧
    asciiStr (pys "## Item abc") ∧
    parse_queue_lines [pys "hdr", pys "## Item abc"] = none :=
  ⟨by decide, by decide, by decide,
   C8_malformed_marker_aborts [pys "hdr", pys "## Item abc"] (pys "## Item abc")
     (by decide) (by decide) (by decide) (by decide)⟩

/-- Counterexample for C9: the summarizer does not emit the text
`"step 1: 安装\nstep 2: 配置\n"` unchanged — it collapses the newlines
to spaces and strips the result. -/
theorem C9_summarize_counterexample :
    summarize (pys "step 1: 安装\nstep 2: 配置\n")
      ≠ pys "step 1: 安装\nstep 2: 配置\n" := by
  decide

/-- C9 (amended): for `main.text = "step 1: 安装\nstep 2: 配置\n"` the
categorizer assigns `install-debug` (keywords `安装`/`配置` match), and
the summarizer emits the whitespace-normalized text untruncated (its
normalized length is at most 120): runs of whitespace are collapsed to
single spaces and the result is stripped, so the newlines are replaced
by spaces rather than the text being emitted unchanged. -/
theorem C9_categorize_summarize :
    categorize (pys "step 1: 安装\nstep 2: 配置\n") = pys "install-debug" ∧
    summarize (pys "step 1: 安装\nstep 2: 配置\n") = pys "step 1: 安装 step 2: 配置" ∧
    summarize (pys "step 1: 安装\nstep 2: 配置\n")
      = stripPy (collapseWs (pys "step 1: 安装\nstep 2: 配置\n")) ∧
    (stripPy (collapseWs (pys "step 1: 安装\nstep 2: 配置\n"))).length ≤ 120 := by
  refine ⟨?_, by decide, by decide, by decide⟩
  decide

/-!
Line-level lemmas about `splitlinesPy` and `joinNl`.
-/

/-- A clean line contains no line-boundary characters. -/
def lineClean (l : PyStr) : Prop := ∀ c ∈ l, pyLB c = false

instance (l : PyStr) : Decidable (lineClean l) := by
  unfold lineClean
  infer_instance

/-- A body whose only line-boundary characters are `\n`: exactly the
texts whose `splitlines` boundaries are plain newlines. -/
def nlOnly (t : PyStr) : Prop := ∀ c ∈ t, pyLB c = true → c = '\n'

instance (t : PyStr) : Decidable (nlOnly t) := by
  unfold nlOnly
  infer_instance

/-- A tail of an `nlOnly` string is `nlOnly`. -/
theorem nlOnly_tail (c : Char) (t : PyStr) (h : nlOnly (c :: t)) : nlOnly t :=
  fun x hx hlb => h x (List.mem_cons_of_mem _ hx) hlb

/-- In an `nlOnly` string, a head that is not a newline is not a
boundary. -/
theorem nlOnly_head_other (c : Char) (t : PyStr) (h : nlOnly (c :: t))
    (hc : c ≠ '\n') : pyLB c = false := by
  cases hpb : pyLB c
  · rfl
  · exact absurd (h c (List.mem_cons_self c t) hpb) hc

/-- Case equation of `splitlinesAux` for the empty string. -/
theorem splitlinesAux_empty (acc : PyStr) :
    splitlinesAux [] acc = if acc.isEmpty then [] else [acc.reverse] := rfl

/-- Case equation of `splitlinesAux` at a newline. -/
theorem splitlinesAux_nl (rest acc : PyStr) :
    splitlinesAux ('\n' :: rest) acc = acc.reverse :: splitlinesAux rest [] := rfl

/-- Case equation of `splitlinesAux` at a carriage return not followed
by a newline. -/
theorem splitlinesAux_cr_other (d : Char) (hd : d ≠ '\n') (t acc : PyStr) :
    splitlinesAux ('\r' :: d :: t) acc = acc.reverse :: splitlinesAux (d :: t) [] := by
  rw [splitlinesAux.eq_def]
  split
  · rename_i h; cases h
  · rename_i h; injection h with h1 _; cases h1
  · rename_i h
    injection h with h1 h2
    injection h2 with h3 _
    exact absurd h3 hd
  · rename_i h
    injection h with h1 h2
    rw [h2]
  · rename_i hno1 hno2 hno3 h
    injection h with h1 _
    exact absurd h1.symm hno3

/-- Case equation of `splitlinesAux` at a non-boundary character. -/
theorem splitlinesAux_other (c : Char) (hc : pyLB c = false)
    (rest acc : PyStr) : splitlinesAux (c :: rest) acc = splitlinesAux rest (c :: acc) := by
  have hc1 : c ≠ '\n' := by
    intro h
    subst h
    exact absurd hc (by decide)
  have hc2 : c ≠ '\r' := by
    intro h
    subst h
    exact absurd hc (by decide)
  rw [splitlinesAux.eq_def]
  split
  · rename_i h; cases h
  · rename_i h; injection h with h1 _; exact absurd h1 hc1
  · rename_i h; injection h with h1 _; exact absurd h1 hc2
  · rename_i h; injection h with h1 _; exact absurd h1 hc2
  · rename_i h
    injection h with h1 h2
    subst h1
    subst h2
    rw [if_neg (by simp [hc])]

/-- Case equation of `splitlinesAux` at a one-character boundary other
than `\n` and `\r`. -/
theorem splitlinesAux_lb (c : Char) (hlb : pyLB c = true) (hc1 : c ≠ '\n')
    (hc2 : c ≠ '\r') (rest acc : PyStr) :
    splitlinesAux (c :: rest) acc = acc.reverse :: splitlinesAux rest [] := by
  rw [splitlinesAux.eq_def]
  split
  · rename_i h; cases h
  · rename_i h; injection h with h1 _; exact absurd h1 hc1
  · rename_i h; injection h with h1 _; exact absurd h1 hc2
  · rename_i h; injection h with h1 _; exact absurd h1 hc2
  · rename_i h
    injection h with h1 h2
    subst h1
    subst h2
    rw [if_pos hlb]

/-- Splitting consumes one clean line up to its newline terminator. -/
theorem splitlinesAux_line (l : PyStr) (hl : lineClean l) :
    ∀ acc rest, splitlinesAux (l ++ '\n' :: rest) acc
      = (acc.reverse ++ l) :: splitlinesAux rest [] := by
  induction l with
  | nil =>
    intro acc rest
    rw [List.nil_append, splitlinesAux_nl]
    simp
  | cons c l' ih =>
    intro acc rest
    have hc := hl c (by simp)
    have hl' : lineClean l' := fun x hx => hl x (by simp [hx])
    rw [List.cons_append, splitlinesAux_other c hc, ih hl' (c :: acc) rest]
    simp

/-- The split of a terminator-free clean line is the line itself (or
nothing when it is empty and the accumulator is empty). -/
theorem splitlinesAux_last (l : PyStr) (hl : lineClean l) :
    ∀ acc, splitlinesAux l acc
      = if l = [] ∧ acc = [] then [] else [acc.reverse ++ l] := by
  induction l with
  | nil =>
    intro acc
    rw [splitlinesAux_empty]
    by_cases h : acc = [] <;> simp [h]
  | cons c l' ih =>
    intro acc
    have hc := hl c (by simp)
    have hl' : lineClean l' := fun x hx => hl x (by simp [hx])
    rw [splitlinesAux_other c hc, ih hl' (c :: acc)]
    simp

/-- The split result is empty exactly when both inputs are. -/
theorem splitlinesAux_eq_nil (t : PyStr) :
    ∀ acc, splitlinesAux t acc = [] ↔ (t = [] ∧ acc = []) := by
  induction t with
  | nil =>
    intro acc
    rw [splitlinesAux_empty]
    by_cases h : acc = [] <;> simp [h]
  | cons c t' ih =>
    intro acc
    by_cases h1 : c = '\n'
    · subst h1
      rw [splitlinesAux_nl]
      simp
    · by_cases h2 : c = '\r'
      · subst h2
        cases t' with
        | nil =>
          rw [show splitlinesAux ['\r'] acc = acc.reverse :: splitlinesAux [] [] from rfl]
          simp
        | cons d t'' =>
          by_cases hd : d = '\n'
          · subst hd
            rw [show splitlinesAux ('\r' :: '\n' :: t'') acc
              = acc.reverse :: splitlinesAux t'' [] from rfl]
            simp
          · rw [splitlinesAux_cr_other d hd t'' acc]
            simp
      · by_cases h3 : pyLB c = true
        · rw [splitlinesAux_lb c h3 h1 h2]
          simp
        · rw [splitlinesAux_other c (by simpa using h3)]
          simp [ih]

/-- `joinNl` distributes over a cons with nonempty tail. -/
theorem joinNl_cons (l : PyStr) (ls : List PyStr) (h : ls ≠ []) :
    joinNl (l :: ls) = l ++ '\n' :: joinNl ls := by
  cases ls with
  | nil => cases h rfl
  | cons a as => rfl

/-- Splitting a full file whose last character is not a newline and
joining the lines back reconstructs the file. -/
theorem joinNl_splitlinesAux (t : PyStr) :
    ∀ acc, nlOnly t → t.getLast? ≠ some '\n' →
      joinNl (splitlinesAux t acc)
        = if t = [] ∧ acc = [] then [] else acc.reverse ++ t := by
  induction t with
  | nil =>
    intro acc _ _
    rw [splitlinesAux_empty]
    by_cases h : acc = [] <;> simp [h, joinNl]
  | cons c t' ih =>
    intro acc hr hlast
    have hr' : nlOnly t' := nlOnly_tail c t' hr
    by_cases h1 : c = '\n'
    · subst h1
      have ht' : t' ≠ [] := by
        intro h
        subst h
        simp at hlast
      have hlast' : t'.getLast? ≠ some '\n' := by
        cases t' with
        | nil => cases ht' rfl
        | cons b bs => rwa [List.getLast?_cons_cons] at hlast
      have hS : splitlinesAux t' [] ≠ [] := by
        rw [Ne, splitlinesAux_eq_nil]
        simp [ht']
      rw [splitlinesAux_nl, joinNl_cons _ _ hS, ih [] hr' hlast']
      simp [ht']
    · have hlast' : t'.getLast? ≠ some '\n' := by
        cases t' with
        | nil => simp
        | cons b bs => rwa [List.getLast?_cons_cons] at hlast
      rw [splitlinesAux_other c (nlOnly_head_other c t' hr h1), ih (c :: acc) hr' hlast']
      simp

/-- Reconstruction for a file with no carriage returns that does not
end in a newline. -/
theorem joinNl_splitlines (t : PyStr) (hr : nlOnly t)
    (hlast : t.getLast? ≠ some '\n') : joinNl (splitlinesPy t) = t := by
  have h := joinNl_splitlinesAux t [] hr hlast
  by_cases ht : t = []
  · subst ht
    simpa [splitlinesPy] using h
  · simpa [splitlinesPy, ht] using h

/-- Splitting a newline-terminated file and joining back with a final
newline reconstructs the file. -/
theorem joinNl_splitlinesAux_nl (t : PyStr) :
    ∀ acc, nlOnly t → t ≠ [] → t.getLast? = some '\n' →
      joinNl (splitlinesAux t acc) ++ ['\n'] = acc.reverse ++ t := by
  induction t with
  | nil => intro acc _ h _; cases h rfl
  | cons c t' ih =>
    intro acc hr _ hlast
    have hr' : nlOnly t' := nlOnly_tail c t' hr
    by_cases ht' : t' = []
    · subst ht'
      have hc : c = '\n' := by simpa using hlast
      subst hc
      rw [splitlinesAux_nl, splitlinesAux_empty]
      simp [joinNl]
    · have hlast' : t'.getLast? = some '\n' := by
        cases t' with
        | nil => cases ht' rfl
        | cons b bs => rwa [List.getLast?_cons_cons] at hlast
      by_cases h1 : c = '\n'
      · subst h1
        have hS : splitlinesAux t' [] ≠ [] := by
          rw [Ne, splitlinesAux_eq_nil]
          simp [ht']
        rw [splitlinesAux_nl, joinNl_cons _ _ hS]
        have h2 := ih [] hr' ht' hlast'
        simp only [List.reverse_nil, List.nil_append] at h2
        simp [h2]
      · rw [splitlinesAux_other c (nlOnly_head_other c t' hr h1)]
        have h2 := ih (c :: acc) hr' ht' hlast'
        simp only [List.reverse_cons] at h2
        simp [h2]

/-- When the accumulator is nonempty, the first produced line is
nonempty. -/
theorem splitlinesAux_head_ne (t : PyStr) :
    ∀ acc, acc ≠ [] → ∀ l ls, splitlinesAux t acc = l :: ls → l ≠ [] := by
  induction t with
  | nil =>
    intro acc h l ls heq
    rw [splitlinesAux_empty, if_neg (by simpa using h)] at heq
    cases heq
    simpa using h
  | cons c t' ih =>
    intro acc h l ls heq
    by_cases h1 : c = '\n'
    · subst h1
      rw [splitlinesAux_nl] at heq
      cases heq
      simpa using h
    · by_cases h2 : c = '\r'
      · subst h2
        cases t' with
        | nil =>
          rw [show splitlinesAux ['\r'] acc = acc.reverse :: splitlinesAux [] [] from rfl] at heq
          cases heq
          simpa using h
        | cons d t'' =>
          by_cases hd : d = '\n'
          · subst hd
            rw [show splitlinesAux ('\r' :: '\n' :: t'') acc
              = acc.reverse :: splitlinesAux t'' [] from rfl] at heq
            cases heq
            simpa using h
          · rw [splitlinesAux_cr_other d hd t'' acc] at heq
            cases heq
            simpa using h
      · by_cases h3 : pyLB c = true
        · rw [splitlinesAux_lb c h3 h1 h2] at heq
          cases heq
          simpa using h
        · rw [splitlinesAux_other c (by simpa using h3)] at heq
          exact ih (c :: acc) (by simp) l ls heq

/-!
Chunking lemmas and the C2 claim.
-/

/-- The running `size` of `chunk_text`: each buffered line counts as
its length plus one. -/
def lineSizes (buf : List PyStr) : Nat := (buf.map fun l => l.length + 1).sum

/-- The joined buffer is one shorter than its accounted size. -/
theorem joinNl_length (buf : List PyStr) (h : buf ≠ []) :
    (joinNl buf).length + 1 = lineSizes buf := by
  induction buf with
  | nil => cases h rfl
  | cons l ls ih =>
    cases ls with
    | nil => simp [joinNl, lineSizes]
    | cons a as =>
      rw [joinNl_cons l (a :: as) (by simp)]
      have := ih (by simp)
      simp only [lineSizes, List.map_cons, List.sum_cons] at this ⊢
      simp only [List.length_append, List.length_cons]
      omega

/-- `joinNl` over an append of nonempty line lists. -/
theorem joinNl_append (a b : List PyStr) (ha : a ≠ []) (hb : b ≠ []) :
    joinNl (a ++ b) = joinNl a ++ '\n' :: joinNl b := by
  induction a with
  | nil => cases ha rfl
  | cons x a' ih =>
    cases a' with
    | nil =>
      rw [List.singleton_append, joinNl_cons x b hb]
      simp [joinNl]
    | cons y a'' =>
      rw [List.cons_append, joinNl_cons x (y :: a'' ++ b) (by simp),
        joinNl_cons x (y :: a'') (by simp), ih (by simp)]
      simp

/-- A flatten of nonempty groups with at least one group is nonempty. -/
theorem flatten_ne_nil (gs : List (List PyStr)) (hne : gs ≠ [])
    (h : ∀ g ∈ gs, g ≠ []) : gs.flatten ≠ [] := by
  cases gs with
  | nil => cases hne rfl
  | cons g gs' =>
    have hg : g ≠ [] := h g (by simp)
    simp only [List.flatten_cons]
    intro hcontr
    exact hg (List.append_eq_nil.mp hcontr).1

/-- Joining the per-group joins equals joining the flattened lines,
for nonempty groups. -/
theorem joinNl_map_flatten (gs : List (List PyStr)) (h : ∀ g ∈ gs, g ≠ []) :
    joinNl (gs.map joinNl) = joinNl gs.flatten := by
  induction gs with
  | nil => rfl
  | cons g gs' ih =>
    cases gs' with
    | nil => simp [joinNl]
    | cons g2 gs'' =>
      have hg : g ≠ [] := h g (by simp)
      have hrest : ∀ x ∈ g2 :: gs'', x ≠ [] := fun x hx => h x (by simp [hx])
      have hfl : (g2 :: gs'').flatten ≠ [] := flatten_ne_nil _ (by simp) hrest
      rw [List.map_cons, joinNl_cons _ _ (by simp), List.flatten_cons,
        joinNl_append g _ hg hfl, ih hrest]

/-- The chunk loop partitions its input lines: the chunks are the
newline-joins of consecutive nonempty groups of `buf ++ ls`. -/
theorem chunkLoop_partition (max_chars : Nat) :
    ∀ (ls buf : List PyStr) (size : Nat),
      ∃ groups : List (List PyStr),
        chunkLoop max_chars ls buf size = groups.map joinNl ∧
        groups.flatten = buf ++ ls ∧
        ∀ g ∈ groups, g ≠ [] := by
  intro ls
  induction ls with
  | nil =>
    intro buf size
    by_cases h : buf = []
    · exact ⟨[], by simp [chunkLoop, h], by simp [h], by simp⟩
    · refine ⟨[buf], by simp [chunkLoop, h], by simp, ?_⟩
      intro g hg
      rw [List.mem_singleton] at hg
      subst hg
      exact h
  | cons l ls' ih =>
    intro buf size
    by_cases hcond : size + (l.length + 1) > max_chars ∧ buf ≠ []
    · obtain ⟨groups, heq, hfl, hne⟩ := ih [l] (l.length + 1)
      refine ⟨buf :: groups, ?_, ?_, ?_⟩
      · simp only [chunkLoop]
        rw [if_pos hcond, heq]
        simp
      · simp [hfl]
      · intro g hg
        rcases List.mem_cons.mp hg with rfl | hg'
        · exact hcond.2
        · exact hne g hg'
    · obtain ⟨groups, heq, hfl, hne⟩ := ih (buf ++ [l]) (size + (l.length + 1))
      refine ⟨groups, ?_, ?_, hne⟩
      · simp only [chunkLoop]
        rw [if_neg hcond, heq]
      · simp [hfl]

/-- Every chunk respects the cap provided no single line exceeds it;
the loop invariant carries `size = lineSizes buf ≤ max_chars + 1`. -/
theorem chunkLoop_cap (max_chars : Nat) :
    ∀ (ls buf : List PyStr) (size : Nat),
      size = lineSizes buf →
      (buf = [] → size = 0) →
      size ≤ max_chars + 1 →
      (∀ l ∈ ls, l.length ≤ max_chars) →
      ∀ c ∈ chunkLoop max_chars ls buf size, c.length ≤ max_chars := by
  intro ls
  induction ls with
  | nil =>
    intro buf size hsize _ hbound _ c hc
    by_cases h : buf = []
    · simp [chunkLoop, h] at hc
    · simp only [chunkLoop] at hc
      rw [if_neg h] at hc
      rw [List.mem_singleton] at hc
      subst hc
      have := joinNl_length buf h
      omega
  | cons l ls' ih =>
    intro buf size hsize hzero hbound hlines c hc
    have hl : l.length ≤ max_chars := hlines l (by simp)
    have hlines' : ∀ x ∈ ls', x.length ≤ max_chars := fun x hx => hlines x (by simp [hx])
    by_cases hcond : size + (l.length + 1) > max_chars ∧ buf ≠ []
    · simp only [chunkLoop] at hc
      rw [if_pos hcond] at hc
      rcases List.mem_cons.mp hc with rfl | hc'
      · have := joinNl_length buf hcond.2
        omega
      · exact ih [l] (l.length + 1) (by simp [lineSizes]) (by simp) (by omega) hlines' c hc'
    · simp only [chunkLoop] at hc
      rw [if_neg hcond] at hc
      have hnew : size + (l.length + 1) = lineSizes (buf ++ [l]) := by
        simp [lineSizes, hsize]
      have hbound' : size + (l.length + 1) ≤ max_chars + 1 := by
        rcases not_and_or.mp hcond with h1 | h2
        · omega
        · have hb : buf = [] := not_not.mp h2
          have := hzero hb
          omega
      exact ih (buf ++ [l]) (size + (l.length + 1)) hnew (by simp) hbound' hlines' c hc

/-- A newline-terminated single-line text is chunked as that one line,
whatever the cap. -/
theorem chunk_text_single (L : PyStr) (hclean : lineClean L) (C : Nat) :
    chunk_text (L ++ ['\n']) C = [L] := by
  have hsplit : splitlinesPy (L ++ ['\n']) = [L] := by
    rw [splitlinesPy, show (['\n'] : PyStr) = '\n' :: [] from rfl,
      splitlinesAux_line L hclean [] [], splitlinesAux_empty]
    simp
  rw [chunk_text, hsplit]
  simp only [chunkLoop]
  rw [if_neg (by simp)]
  rw [if_neg (by simp)]
  simp [joinNl]

/-- Counterexample for C2: a single 1801-character line is emitted as a
chunk of length 1801 > 1800 (lines are never split), and rejoining the
chunks drops the trailing newline, so the original text is not
reconstructed. -/
theorem C2_chunk_counterexample :
    chunk_text (List.replicate 1801 'a' ++ ['\n']) 1800 = [List.replicate 1801 'a'] ∧
    1800 < (List.replicate 1801 'a').length ∧
    joinNl (chunk_text (List.replicate 1801 'a' ++ ['\n']) 1800)
      ≠ List.replicate 1801 'a' ++ ['\n'] := by
  have hclean : lineClean (List.replicate 1801 'a') := by
    intro c hc
    have hca := List.eq_of_mem_replicate hc
    subst hca
    decide
  have hchunk := chunk_text_single (List.replicate 1801 'a') hclean 1800
  refine ⟨hchunk, ?_, ?_⟩
  · rw [List.length_replicate]
    omega
  · rw [hchunk]
    intro h
    have hlen := congrArg List.length h
    rw [show joinNl [List.replicate 1801 'a'] = List.replicate 1801 'a' from rfl] at hlen
    simp only [List.length_replicate, List.length_append, List.length_cons,
      List.length_nil] at hlen
    omega

/-- C2 (amended): `chunk_text` splits only on line boundaries — the
chunks are newline-joins of consecutive nonempty groups partitioning
`splitlines(text)`; provided no single line exceeds the cap, no chunk
exceeds the cap; and rejoining the chunks with newlines reconstructs
the newline-join of the lines, hence the original text whenever its
only line-boundary characters are `\n` and it does not end with a
newline. -/
theorem C2_chunking (text : PyStr) (C : Nat) :
    (∃ groups : List (List PyStr),
        chunk_text text C = groups.map joinNl ∧
        groups.flatten = splitlinesPy text ∧
        ∀ g ∈ groups, g ≠ []) ∧
    ((∀ l ∈ splitlinesPy text, l.length ≤ C) →
        ∀ c ∈ chunk_text text C, c.length ≤ C) ∧
    joinNl (chunk_text text C) = joinNl (splitlinesPy text) ∧
    (nlOnly text → text.getLast? ≠ some '\n' →
        joinNl (chunk_text text C) = text) := by
  obtain ⟨groups, heq, hfl, hne⟩ := chunkLoop_partition C (splitlinesPy text) [] 0
  simp only [List.nil_append] at hfl
  have heq' : chunk_text text C = groups.map joinNl := by
    rw [chunk_text]
    exact heq
  have hjoin : joinNl (chunk_text text C) = joinNl (splitlinesPy text) := by
    rw [heq', joinNl_map_flatten groups hne, hfl]
  refine ⟨⟨groups, heq', hfl, hne⟩, ?_, hjoin, ?_⟩
  · intro hlines c hc
    rw [chunk_text] at hc
    exact chunkLoop_cap C (splitlinesPy text) [] 0 (by simp [lineSizes])
      (fun _ => rfl) (by omega) hlines c hc
  · intro hr hlast
    rw [hjoin, joinNl_splitlines text hr hlast]

/-- Witness for C2 at the text `"ab\ncd"` and cap 1800. -/
theorem C2_chunking_witness :
    (∀ l ∈ splitlinesPy (pys "ab\ncd"), l.length ≤ 1800) ∧
    (∀ c ∈ chunk_text (pys "ab\ncd") 1800, c.length ≤ 1800) ∧
    nlOnly (pys "ab\ncd") ∧
    joinNl (chunk_text (pys "ab\ncd") 1800) = pys "ab\ncd" :=
  ⟨by decide, (C2_chunking (pys "ab\ncd") 1800).2.1 (by decide),
   by decide, (C2_chunking (pys "ab\ncd") 1800).2.2.2 (by decide) (by decide)⟩

/-!
Batch partial-failure lemmas and the C6 claim.
-/

/-- A link with no `/status/<id>` match makes its loop iteration record
an error naming the link. -/
theorem processLink_bad (fs : PyStr → Option Capture) (bad : PyStr)
    (hbad : extract_status_id bad = []) :
    processLink fs bad = Except.error (bad ++ pys ": Invalid X link: " ++ bad) := by
  simp [processLink, hbad]

/-- A link with a status id whose capture file exists is processed
successfully. -/
theorem processLink_ok (fs : PyStr → Option Capture) (l : PyStr)
    (h1 : extract_status_id l ≠ [])
    (h2 : (fs (extract_status_id l)).isSome = true) :
    ∃ it, processLink fs l = Except.ok it := by
  obtain ⟨data, hd⟩ := Option.isSome_iff_exists.mp h2
  have hne : (extract_status_id l).isEmpty = false := by
    simpa [List.isEmpty_iff] using h1
  simp only [processLink, hne, hd, Bool.false_eq_true, if_false]
  exact ⟨_, rfl⟩

/-- The per-link loop over a list with exactly one malformed link
processes all the other links and records exactly that link's error. -/
theorem runBatch_one_bad (fs : PyStr → Option Capture) (bad : PyStr)
    (hbad : extract_status_id bad = []) :
    ∀ pre post : List PyStr,
      (∀ l ∈ pre ++ post, extract_status_id l ≠ [] ∧
        (fs (extract_status_id l)).isSome = true) →
      (runBatch fs (pre ++ bad :: post)).1.length = pre.length + post.length ∧
      (runBatch fs (pre ++ bad :: post)).2
        = [bad ++ pys ": Invalid X link: " ++ bad] := by
  intro pre
  induction pre with
  | nil =>
    intro post hok
    have hall : ∀ l ∈ post, extract_status_id l ≠ [] ∧
        (fs (extract_status_id l)).isSome = true := by
      intro l hl
      exact hok l (by simpa using hl)
    have hpost : (runBatch fs post).1.length = post.length ∧
        (runBatch fs post).2 = [] := by
      clear hok
      induction post with
      | nil => simp [runBatch]
      | cons q qs ihq =>
        have hq := hall q (by simp)
        obtain ⟨it, hit⟩ := processLink_ok fs q hq.1 hq.2
        have hrest := ihq (fun l hl => hall l (by simp [hl]))
        simp [runBatch, hit, hrest.1, hrest.2]
    simp [runBatch, processLink_bad fs bad hbad, hpost.1, hpost.2]
  | cons p pre' ih =>
    intro post hok
    have hp := hok p (by simp)
    obtain ⟨it, hit⟩ := processLink_ok fs p hp.1 hp.2
    have hrest := ih post (fun l hl => hok l (by simp at hl ⊢; tauto))
    simp [runBatch, hit, hrest.1, hrest.2]
    try omega

/-- C6: in the batch flow over ASCII links, one malformed link (no
`/status/<id>`) does not stop the run: its failure is recorded as the
single entry of the `errors` list of the final JSON summary (an entry
that names the link), every other link is still processed, and the
summary reports `processed = links - 1`.  The links are restricted to
ASCII so that the model's `/status/(\d+)` scan coincides with Python's
regex, whose `\d` additionally matches non-ASCII Unicode decimal
digits. -/
theorem C6_partial_batch (fs : PyStr → Option Capture) (pre post : List PyStr)
    (bad : PyStr) (_hascii : ∀ l ∈ pre ++ bad :: post, asciiStr l)
    (hbad : extract_status_id bad = [])
    (hok : ∀ l ∈ pre ++ post, extract_status_id l ≠ [] ∧
      (fs (extract_status_id l)).isSome = true) :
    (batchSummary fs (pre ++ bad :: post)).links = (pre ++ bad :: post).length ∧
    (batchSummary fs (pre ++ bad :: post)).processed
      = (pre ++ bad :: post).length - 1 ∧
    (batchSummary fs (pre ++ bad :: post)).errors
      = [bad ++ pys ": Invalid X link: " ++ bad] ∧
    (batchSummary fs (pre ++ bad :: post)).errors ≠ [] := by
  have h := runBatch_one_bad fs bad hbad pre post hok
  refine ⟨rfl, ?_, ?_, ?_⟩
  · show (runBatch fs (pre ++ bad :: post)).1.length = _
    rw [h.1]
    simp
    try omega
  · exact h.2
  · show (runBatch fs (pre ++ bad :: post)).2 ≠ []
    rw [h.2]
    simp

/-- Concrete capture store for the C6 witness. -/
def fsW : PyStr → Option Capture :=
  fun sid => if sid = pys "11" then some ⟨pys "11", pys "au", pys "hello"⟩ else none

/-- Witness for C6: a two-line links file whose second line is
malformed. -/
theorem C6_partial_batch_witness :
    extract_status_id (pys "badlink") = [] ∧
    (batchSummary fsW [pys "https://x.com/a/status/11", pys "badlink"]).links = 2 ∧
    (batchSummary fsW [pys "https://x.com/a/status/11", pys "badlink"]).processed = 1 ∧
    (batchSummary fsW [pys "https://x.com/a/status/11", pys "badlink"]).errors
      = [pys "badlink" ++ pys ": Invalid X link: " ++ pys "badlink"] := by
  have h := C6_partial_batch fsW [pys "https://x.com/a/status/11"] [] (pys "badlink")
    (by decide) (by decide) (by decide)
  exact ⟨by decide, h.1, h.2.1, h.2.2.1⟩

/-!
Substring-counting lemmas for the knowledge-base marker, and the C5
claim.
-/

/-- Every string is a prefix of itself. -/
theorem startsWithPy_self (s : PyStr) : startsWithPy s s = true := by
  induction s with
  | nil => rfl
  | cons c rest ih => simp [startsWithPy, ih]

/-- A prefix is no longer than the string. -/
theorem startsWithPy_le_length (pat : PyStr) :
    ∀ s, startsWithPy pat s = true → pat.length ≤ s.length := by
  induction pat with
  | nil => intro s _; simp
  | cons p ps ih =>
    intro s h
    cases s with
    | nil => cases h
    | cons c rest =>
      simp only [startsWithPy, Bool.and_eq_true] at h
      have := ih rest h.2
      simp only [List.length_cons]
      omega

/-- With enough characters before the junction, a prefix test ignores
the appended tail. -/
theorem startsWithPy_of_long (pat : PyStr) :
    ∀ (x y : PyStr), pat.length ≤ x.length →
      startsWithPy pat (x ++ y) = startsWithPy pat x := by
  induction pat with
  | nil => intro x y _; rfl
  | cons p ps ih =>
    intro x y hlen
    cases x with
    | nil => simp at hlen
    | cons c x' =>
      simp only [List.cons_append, startsWithPy, List.append_eq]
      rw [ih x' y (by simp at hlen; omega)]

/-- A pattern whose head does not occur in a string never occurs
there. -/
theorem countSub_no_first (p : Char) (ps : PyStr) :
    ∀ s, p ∉ s → countSub (p :: ps) s = 0 := by
  intro s
  induction s with
  | nil => intro _; rfl
  | cons c rest ih =>
    intro h
    have hpc : p ≠ c := fun hh => h (hh ▸ List.mem_cons_self c rest)
    have h' : p ∉ rest := fun hh => h (List.mem_cons_of_mem _ hh)
    simp only [countSub, startsWithPy]
    rw [if_neg (by simp [hpc]), ih h']

/-- A pattern with a unique head character occurs in itself exactly
once. -/
theorem countSub_self_once (p : Char) (ps : PyStr) (h : p ∉ ps) :
    countSub (p :: ps) (p :: ps) = 1 := by
  simp only [countSub]
  rw [if_pos (startsWithPy_self (p :: ps)), countSub_no_first p ps ps h]

/-- A match that starts strictly inside `x` and would cross into
`p :: y'` is impossible when `p` does not recur in the pattern tail:
the pattern tail fits inside the remainder of `x`. -/
theorem startsWithPy_tail_fits (p : Char) :
    ∀ (ps x y' : PyStr), p ∉ ps →
      startsWithPy ps (x ++ p :: y') = true → ps.length ≤ x.length := by
  intro ps
  induction ps with
  | nil => intro x y' _ _; simp
  | cons q ps' ih =>
    intro x y' hp h
    cases x with
    | nil =>
      simp only [List.nil_append, startsWithPy, Bool.and_eq_true, beq_iff_eq] at h
      exact absurd h.1.symm (fun hh => hp (hh ▸ List.mem_cons_self q ps'))
    | cons c x' =>
      simp only [List.cons_append, startsWithPy, Bool.and_eq_true] at h
      have := ih x' y' (fun hh => hp (List.mem_cons_of_mem _ hh)) h.2
      simp only [List.length_cons]
      omega

/-- Occurrence counting splits at a junction whose right side starts
with the pattern's unique head character. -/
theorem countSub_append_head (p : Char) (ps : PyStr) (hp : p ∉ ps) (y' : PyStr) :
    ∀ x, countSub (p :: ps) (x ++ p :: y')
      = countSub (p :: ps) x + countSub (p :: ps) (p :: y') := by
  intro x
  induction x with
  | nil => simp [countSub]
  | cons c x' ih =>
    have hsw : startsWithPy (p :: ps) ((c :: x') ++ p :: y')
        = startsWithPy (p :: ps) (c :: x') := by
      by_cases hlen : (p :: ps).length ≤ (c :: x').length
      · exact startsWithPy_of_long (p :: ps) (c :: x') (p :: y') hlen
      · have h1 : startsWithPy (p :: ps) ((c :: x') ++ p :: y') = false := by
          by_contra hcon
          rw [Bool.not_eq_false] at hcon
          simp only [List.cons_append, startsWithPy, Bool.and_eq_true] at hcon
          have := startsWithPy_tail_fits p ps x' y' hp hcon.2
          simp only [List.length_cons] at hlen
          omega
        have h2 : startsWithPy (p :: ps) (c :: x') = false := by
          by_contra hcon
          rw [Bool.not_eq_false] at hcon
          exact hlen (startsWithPy_le_length _ _ hcon)
        rw [h1, h2]
    simp only [List.cons_append, countSub, List.append_eq]
    simp only [List.cons_append, List.append_eq] at hsw
    simp only [hsw, ih]
    have hexp : countSub (p :: ps) (p :: y')
        = (if startsWithPy (p :: ps) (p :: y') = true then 1 else 0)
          + countSub (p :: ps) y' := rfl
    omega

/-- Occurrence counting of a newline-free pattern splits at a newline. -/
theorem countSub_split_nl (p : Char) (ps : PyStr) (hnl : '\n' ∉ p :: ps) (b : PyStr) :
    ∀ a, countSub (p :: ps) (a ++ '\n' :: b)
      = countSub (p :: ps) a + countSub (p :: ps) b := by
  have hp : p ≠ '\n' := fun h => hnl (h ▸ List.mem_cons_self p ps)
  intro a
  induction a with
  | nil =>
    simp only [List.nil_append, countSub, startsWithPy]
    rw [if_neg (by simp [hp])]
    rfl
  | cons c a' ih =>
    have hsw : startsWithPy (p :: ps) ((c :: a') ++ '\n' :: b)
        = startsWithPy (p :: ps) (c :: a') := by
      by_cases hlen : (p :: ps).length ≤ (c :: a').length
      · exact startsWithPy_of_long (p :: ps) (c :: a') ('\n' :: b) hlen
      · have h1 : startsWithPy (p :: ps) ((c :: a') ++ '\n' :: b) = false := by
          by_contra hcon
          rw [Bool.not_eq_false] at hcon
          have hfits : ∀ (ps' x : PyStr), '\n' ∉ ps' →
              startsWithPy ps' (x ++ '\n' :: b) = true → ps'.length ≤ x.length := by
            intro ps'
            induction ps' with
            | nil => intro x _ _; simp
            | cons q qs ihq =>
              intro x hq h
              cases x with
              | nil =>
                simp only [List.nil_append, startsWithPy, Bool.and_eq_true,
                  beq_iff_eq] at h
                exact absurd h.1 (fun hh => hq (hh ▸ List.mem_cons_self q qs))
              | cons d x' =>
                simp only [List.cons_append, startsWithPy, Bool.and_eq_true] at h
                have := ihq x' (fun hh => hq (List.mem_cons_of_mem _ hh)) h.2
                simp only [List.length_cons]
                omega
          have := hfits (p :: ps) (c :: a') hnl hcon
          omega
        have h2 : startsWithPy (p :: ps) (c :: a') = false := by
          by_contra hcon
          rw [Bool.not_eq_false] at hcon
          exact hlen (startsWithPy_le_length _ _ hcon)
        rw [h1, h2]
    simp only [List.cons_append, countSub, List.append_eq]
    simp only [List.cons_append, List.append_eq] at hsw
    simp only [hsw, ih]
    omega

/-- Occurrences of a newline-free pattern in a newline-join are summed
line by line. -/
theorem countSub_joinNl (p : Char) (ps : PyStr) (hnl : '\n' ∉ p :: ps) :
    ∀ ls : List PyStr,
      countSub (p :: ps) (joinNl ls) = (ls.map (countSub (p :: ps))).sum := by
  intro ls
  induction ls with
  | nil => rfl
  | cons l ls' ih =>
    cases ls' with
    | nil => simp [joinNl]
    | cons l2 ls'' =>
      rw [joinNl_cons l (l2 :: ls'') (by simp),
        countSub_split_nl p ps hnl (joinNl (l2 :: ls'')) l, ih]
      simp

/-- `inPy` is occurrence-count positivity. -/
theorem inPy_iff_countSub (pat : PyStr) :
    ∀ s, inPy pat s = true ↔ countSub pat s ≠ 0 := by
  intro s
  induction s with
  | nil =>
    by_cases h : pat.isEmpty = true <;> simp [inPy, countSub, h]
  | cons c rest ih =>
    by_cases h : startsWithPy pat (c :: rest) = true <;>
      simp [inPy, countSub, h, ih]

/-- The marker string in head-tail form. -/
theorem kbMarker_eq (sid : PyStr) :
    kbMarker sid = '<' :: (pys "!-- status_id:" ++ sid ++ pys " -->") := rfl

/-- The marker's tail contains no `<` when the status id does not. -/
theorem kbMarker_tail_no_lt (sid : PyStr) (h : '<' ∉ sid) :
    '<' ∉ (pys "!-- status_id:" ++ sid ++ pys " -->") := by
  intro hmem
  rcases List.mem_append.mp hmem with h1 | h2
  · rcases List.mem_append.mp h1 with h3 | h4
    · exact absurd h3 (by decide)
    · exact h h4
  · exact absurd h2 (by decide)

/-- The marker contains no newline when the status id does not. -/
theorem kbMarker_no_nl (sid : PyStr) (h : '\n' ∉ sid) : '\n' ∉ kbMarker sid := by
  intro hmem
  rcases List.mem_append.mp hmem with h1 | h2
  · rcases List.mem_append.mp h1 with h3 | h4
    · exact absurd h3 (by decide)
    · exact h h4
  · exact absurd h2 (by decide)

/-- A newline-free pattern occurs once in a newline-join whose first
line holds it once and whose other lines avoid it. -/
theorem countSub_joinNl_once (p : Char) (ps : PyStr) (hnl : '\n' ∉ p :: ps)
    (m : PyStr) (rest : List PyStr) (hm : countSub (p :: ps) m = 1)
    (hrest : ∀ l ∈ rest, countSub (p :: ps) l = 0) :
    countSub (p :: ps) (joinNl (m :: rest)) = 1 := by
  rw [countSub_joinNl p ps hnl]
  have hz : (rest.map (countSub (p :: ps))).sum = 0 := by
    rw [List.sum_eq_zero]
    intro x hx
    obtain ⟨l, hl, rfl⟩ := List.mem_map.mp hx
    exact hrest l hl
  simp [hm, hz]

/-- The marker occurs exactly once in the rendered entry (including its
final newline), provided the data fields contain no `<` and the status
id no newline. -/
theorem countSub_kbEntry (sid url author learned : PyStr) (points : List PyStr)
    (hsid : '<' ∉ sid) (hnl : '\n' ∉ sid)
    (hurl : '<' ∉ url) (hauthor : '<' ∉ author) (hlearned : '<' ∉ learned)
    (hpoints : ∀ p ∈ points, '<' ∉ p) :
    countSub (kbMarker sid)
      (joinNl (kbEntryLines sid url author learned points) ++ ['\n']) = 1 := by
  have htail : '<' ∉ (pys "!-- status_id:" ++ sid ++ pys " -->") :=
    kbMarker_tail_no_lt sid hsid
  have hmnl : '\n' ∉ kbMarker sid := kbMarker_no_nl sid hnl
  have hentry_ne : kbEntryLines sid url author learned points ≠ [] := by
    simp [kbEntryLines]
  have hjoin : joinNl (kbEntryLines sid url author learned points) ++ ['\n']
      = joinNl (kbEntryLines sid url author learned points ++ [[]]) := by
    rw [joinNl_append _ [[]] hentry_ne (by simp)]
    rfl
  rw [hjoin, kbMarker_eq]
  rw [kbMarker_eq] at hmnl
  have hm : countSub ('<' :: (pys "!-- status_id:" ++ sid ++ pys " -->"))
      (kbMarker sid) = 1 := by
    rw [kbMarker_eq]
    exact countSub_self_once _ _ htail
  have hshape : kbEntryLines sid url author learned points ++ [[]]
      = kbMarker sid ::
        ((pys "## " ++ sid) :: (pys "- source_url: " ++ url) ::
         (pys "- author: " ++ author) :: (pys "- learned_note: " ++ learned) ::
         ((if points.isEmpty then []
           else pys "- top_points:" :: (points.take 5).map (fun p => pys "  - " ++ p))
          ++ [[]] ++ [[]])) := by
    simp [kbEntryLines]
  rw [hshape]
  refine countSub_joinNl_once _ _ hmnl _ _ hm ?_
  intro l hl
  have hnolt : '<' ∉ l := by
    rcases List.mem_cons.mp hl with rfl | hl1
    · intro hmem
      rcases List.mem_append.mp hmem with h1 | h2
      · exact absurd h1 (by decide)
      · exact hsid h2
    rcases List.mem_cons.mp hl1 with rfl | hl2
    · intro hmem
      rcases List.mem_append.mp hmem with h1 | h2
      · exact absurd h1 (by decide)
      · exact hurl h2
    rcases List.mem_cons.mp hl2 with rfl | hl3
    · intro hmem
      rcases List.mem_append.mp hmem with h1 | h2
      · exact absurd h1 (by decide)
      · exact hauthor h2
    rcases List.mem_cons.mp hl3 with rfl | hl4
    · intro hmem
      rcases List.mem_append.mp hmem with h1 | h2
      · exact absurd h1 (by decide)
      · exact hlearned h2
    rcases List.mem_append.mp hl4 with hl5 | hl6
    · rcases List.mem_append.mp hl5 with hif | hbl
      · by_cases hp : points.isEmpty = true
        · rw [if_pos hp] at hif
          cases hif
        · rw [if_neg hp] at hif
          rcases List.mem_cons.mp hif with rfl | hl7
          · exact (by decide)
          · obtain ⟨q, hq, rfl⟩ := List.mem_map.mp hl7
            intro hmem
            rcases List.mem_append.mp hmem with h1 | h2
            · exact absurd h1 (by decide)
            · exact hpoints q (List.mem_of_mem_take hq) h2
      · rw [List.mem_singleton] at hbl
        subst hbl
        exact List.not_mem_nil '<'
    · rw [List.mem_singleton] at hl6
      subst hl6
      exact List.not_mem_nil '<'
  exact countSub_no_first '<' _ l hnolt

/-- Appending the rendered entry to a marker-free base yields exactly
one marker occurrence. -/
theorem append_kb_count (base sid url author learned : PyStr) (points : List PyStr)
    (hbase : countSub (kbMarker sid) base = 0)
    (hsid : '<' ∉ sid) (hnl : '\n' ∉ sid)
    (hurl : '<' ∉ url) (hauthor : '<' ∉ author) (hlearned : '<' ∉ learned)
    (hpoints : ∀ p ∈ points, '<' ∉ p) :
    countSub (kbMarker sid)
      (base ++ joinNl (kbEntryLines sid url author learned points) ++ ['\n']) = 1 := by
  have hentry := countSub_kbEntry sid url author learned points hsid hnl hurl
    hauthor hlearned hpoints
  have htail := kbMarker_tail_no_lt sid hsid
  have hE : joinNl (kbEntryLines sid url author learned points) ++ ['\n']
      = '<' :: ((pys "!-- status_id:" ++ sid ++ pys " -->") ++
          ('\n' :: (joinNl ((pys "## " ++ sid) :: (pys "- source_url: " ++ url) ::
            (pys "- author: " ++ author) :: (pys "- learned_note: " ++ learned) ::
            ((if points.isEmpty then [] else pys "- top_points:" ::
              (points.take 5).map (fun p => pys "  - " ++ p)) ++ [[]])) ++ ['\n']))) := by
    rw [show kbEntryLines sid url author learned points
        = kbMarker sid :: ((pys "## " ++ sid) :: (pys "- source_url: " ++ url) ::
          (pys "- author: " ++ author) :: (pys "- learned_note: " ++ learned) ::
          ((if points.isEmpty then [] else pys "- top_points:" ::
            (points.take 5).map (fun p => pys "  - " ++ p)) ++ [[]])) from rfl]
    rw [joinNl_cons _ _ (by simp), kbMarker_eq]
    simp [List.append_assoc]
  have hbase' : countSub ('<' :: (pys "!-- status_id:" ++ sid ++ pys " -->")) base = 0 := by
    rw [← kbMarker_eq]
    exact hbase
  have hentry' : countSub ('<' :: (pys "!-- status_id:" ++ sid ++ pys " -->"))
      (joinNl (kbEntryLines sid url author learned points) ++ ['\n']) = 1 := by
    rw [← kbMarker_eq]
    exact hentry
  rw [List.append_assoc, kbMarker_eq, hE,
    countSub_append_head '<' _ htail _ base, ← hE, hbase', hentry']

/-- The first `_append_kb` run on a file without the marker returns
`True` and leaves exactly one marker occurrence. -/
theorem append_kb_first (kb0 : Option PyStr) (sid url author learned : PyStr)
    (points : List PyStr)
    (hsid : '<' ∉ sid) (hnl : '\n' ∉ sid)
    (hurl : '<' ∉ url) (hauthor : '<' ∉ author) (hlearned : '<' ∉ learned)
    (hpoints : ∀ p ∈ points, '<' ∉ p)
    (hkb0 : ∀ c, kb0 = some c → inPy (kbMarker sid) c = false) :
    (_append_kb kb0 sid url author learned points).1 = true ∧
    countSub (kbMarker sid) (_append_kb kb0 sid url author learned points).2 = 1 := by
  cases kb0 with
  | none =>
    have hb : countSub (kbMarker sid) (pys "# X Lessons KB\n\n") = 0 := by
      rw [kbMarker_eq]
      exact countSub_no_first '<' _ _ (by decide)
    exact ⟨rfl, append_kb_count _ sid url author learned points hb hsid hnl
      hurl hauthor hlearned hpoints⟩
  | some c =>
    have hfalse := hkb0 c rfl
    have hb : countSub (kbMarker sid) c = 0 := by
      by_contra hne
      have hcon := (inPy_iff_countSub (kbMarker sid) c).mpr hne
      rw [hfalse] at hcon
      cases hcon
    constructor
    · simp [_append_kb, hfalse]
    · have h2 : (_append_kb (some c) sid url author learned points).2
          = c ++ joinNl (kbEntryLines sid url author learned points) ++ ['\n'] := by
        simp [_append_kb, hfalse]
      rw [h2]
      exact append_kb_count c sid url author learned points hb hsid hnl
        hurl hauthor hlearned hpoints

/-- Counterexample for C5: the claim's unconditional "exactly one
marker occurrence" fails when a data field itself embeds the marker
string — with the author field equal to the marker for status id `1`,
the first append returns `True` but already leaves two occurrences of
the marker in the file (one marker line, one inside the author line),
and every re-run is a no-op, so the count stays `2`, never `1`. -/
theorem C5_kb_counterexample :
    (_append_kb none (pys "1") (pys "u") (kbMarker (pys "1")) (pys "l") []).1 = true ∧
    countSub (kbMarker (pys "1"))
      (_append_kb none (pys "1") (pys "u") (kbMarker (pys "1")) (pys "l") []).2 = 2 := by
  constructor
  · decide
  · decide

/-- C5 (amended): provided the url, author, learned-note and point
fields contain no `<` and the status id contains no `<` and no newline,
`_append_kb` is idempotent per status id — starting from an absent file
or one without the marker, the first run appends the entry and returns
`True`, leaving exactly one occurrence of the marker embedding the
status id; every re-run (whatever its other fields) returns `False`
and leaves the file unchanged, so any number of runs results in
exactly one marker occurrence. -/
theorem C5_kb_idempotent (kb0 : Option PyStr) (sid url author learned : PyStr)
    (points : List PyStr) (url2 author2 learned2 : PyStr) (points2 : List PyStr)
    (hnl : '\n' ∉ sid) (hsid : '<' ∉ sid)
    (hurl : '<' ∉ url) (hauthor : '<' ∉ author) (hlearned : '<' ∉ learned)
    (hpoints : ∀ p ∈ points, '<' ∉ p)
    (hkb0 : ∀ c, kb0 = some c → inPy (kbMarker sid) c = false) :
    (_append_kb kb0 sid url author learned points).1 = true ∧
    countSub (kbMarker sid) (_append_kb kb0 sid url author learned points).2 = 1 ∧
    (∀ n, 1 ≤ n → appendKbTimes kb0 sid url author learned points n
      = some (_append_kb kb0 sid url author learned points).2) ∧
    (∀ n, 1 ≤ n →
      (_append_kb (appendKbTimes kb0 sid url author learned points n)
        sid url2 author2 learned2 points2).1 = false) := by
  have hPair := append_kb_first kb0 sid url author learned points hsid hnl hurl
    hauthor hlearned hpoints hkb0
  set R := _append_kb kb0 sid url author learned points with hR
  have hin1 : inPy (kbMarker sid) R.2 = true := by
    rw [inPy_iff_countSub, hPair.2]
    omega
  have hstep : ∀ (u a le : PyStr) (ps : List PyStr),
      _append_kb (some R.2) sid u a le ps = (false, R.2) := by
    intro u a le ps
    simp [_append_kb, hin1]
  have hiter : ∀ n, 1 ≤ n → appendKbTimes kb0 sid url author learned points n
      = some R.2 := by
    intro n hn
    induction n with
    | zero => omega
    | succ m ihm =>
      by_cases hm : m = 0
      · subst hm
        rw [hR]
        rfl
      · have hm1 : 1 ≤ m := by omega
        show some (_append_kb (appendKbTimes kb0 sid url author learned points m)
          sid url author learned points).2 = _
        rw [ihm hm1, hstep url author learned points]
  refine ⟨hPair.1, hPair.2, hiter, ?_⟩
  intro n hn
  rw [hiter n hn, hstep url2 author2 learned2 points2]

/-- Witness for C5 with an absent initial file, status id `123`, and
two runs. -/
theorem C5_kb_idempotent_witness :
    (_append_kb none (pys "123") (pys "u") (pys "a") (pys "l") [pys "p1"]).1 = true ∧
    countSub (kbMarker (pys "123"))
      (_append_kb none (pys "123") (pys "u") (pys "a") (pys "l") [pys "p1"]).2 = 1 ∧
    appendKbTimes none (pys "123") (pys "u") (pys "a") (pys "l") [pys "p1"] 2
      = some (_append_kb none (pys "123") (pys "u") (pys "a") (pys "l") [pys "p1"]).2 ∧
    (_append_kb (appendKbTimes none (pys "123") (pys "u") (pys "a") (pys "l") [pys "p1"] 2)
      (pys "123") (pys "u2") (pys "a2") (pys "l2") []).1 = false := by
  have h := C5_kb_idempotent none (pys "123") (pys "u") (pys "a") (pys "l") [pys "p1"]
    (pys "u2") (pys "a2") (pys "l2") []
    (by decide) (by decide) (by decide) (by decide) (by decide) (by decide)
    (fun c hc => by cases hc)
  exact ⟨h.1, h.2.1, h.2.2.1 2 (by omega), h.2.2.2 2 (by omega)⟩

/-!
Digit and integer formatting lemmas for the queue round-trip.
-/

/-- Character facts about the ten decimal digit characters. -/
theorem digitChar10_facts (d : Nat) (h : d < 10) :
    (digitChar10 d).isDigit = true ∧ pyLB (digitChar10 d) = false ∧
    pyWS (digitChar10 d) = false ∧ digitChar10 d ≠ '[' ∧ digitChar10 d ≠ ']' ∧
    digitChar10 d ≠ '_' ∧ digitChar10 d ≠ '+' ∧ digitChar10 d ≠ '-' ∧
    digitVal (digitChar10 d) = d := by
  interval_cases d <;> exact (by decide)

/-- With sufficient fuel, the digit expansion is nonempty, evaluates
back to the number, and consists of digit characters. -/
theorem natToDigitsAux_spec : ∀ fuel n, n < fuel →
    natToDigitsAux fuel n ≠ [] ∧
    digitsVal (natToDigitsAux fuel n) = n ∧
    ∀ c ∈ natToDigitsAux fuel n, ∃ d, d < 10 ∧ c = digitChar10 d := by
  intro fuel
  induction fuel with
  | zero => intro n h; omega
  | succ f ih =>
    intro n h
    by_cases h10 : n < 10
    · refine ⟨by simp [natToDigitsAux, h10], ?_, ?_⟩
      · simp only [natToDigitsAux, h10, if_true, digitsVal, List.foldl_cons,
          List.foldl_nil]
        have := (digitChar10_facts n h10).2.2.2.2.2.2.2.2
        omega
      · intro c hc
        simp only [natToDigitsAux, h10, if_true, List.mem_singleton] at hc
        exact ⟨n, h10, hc⟩
    · have hpos : 0 < n := by omega
      have hdiv : n / 10 < n := Nat.div_lt_self hpos (by omega)
      have hlt : n / 10 < f := by omega
      obtain ⟨ihne, ihval, ihdig⟩ := ih (n / 10) hlt
      have hmod := digitChar10_facts (n % 10) (Nat.mod_lt n (by omega))
      have hunf : natToDigitsAux (f + 1) n
          = natToDigitsAux f (n / 10) ++ [digitChar10 (n % 10)] := by
        simp [natToDigitsAux, h10]
      refine ⟨by simp [hunf], ?_, ?_⟩
      · rw [hunf]
        simp only [digitsVal, List.foldl_append, List.foldl_cons, List.foldl_nil]
        simp only [digitsVal] at ihval
        rw [ihval, hmod.2.2.2.2.2.2.2.2]
        omega
      · intro c hc
        rw [hunf] at hc
        rcases List.mem_append.mp hc with h1 | h2
        · exact ihdig c h1
        · rw [List.mem_singleton] at h2
          exact ⟨n % 10, Nat.mod_lt n (by omega), h2⟩

/-- Every character of `format03d` is a minus sign or a digit. -/
theorem format03d_chars (id : Int) :
    ∀ c ∈ format03d id, c = '-' ∨ ∃ d, d < 10 ∧ c = digitChar10 d := by
  intro c hc
  simp only [format03d] at hc
  rcases List.mem_append.mp hc with h1 | h2
  · rcases List.mem_append.mp h1 with h3 | h4
    · by_cases hneg : id < 0
      · rw [if_pos hneg] at h3
        rw [List.mem_singleton] at h3
        exact Or.inl h3
      · rw [if_neg hneg] at h3
        cases h3
    · have := List.eq_of_mem_replicate h4
      exact Or.inr ⟨0, by omega, this⟩
  · exact Or.inr ((natToDigitsAux_spec _ _ (by omega)).2.2 c h2)

/-- `format03d` is never empty. -/
theorem format03d_ne_nil (id : Int) : format03d id ≠ [] := by
  simp only [format03d]
  intro h
  rcases List.append_eq_nil.mp h with ⟨_, h2⟩
  exact (natToDigitsAux_spec _ _ (by omega)).1 h2

/-- Whole-character facts needed about `format03d` output. -/
theorem format03d_char_facts (id : Int) :
    ∀ c ∈ format03d id, pyLB c = false ∧ pyWS c = false ∧
      c ≠ '[' ∧ c ≠ ']' ∧ c ≠ '_' := by
  intro c hc
  rcases format03d_chars id c hc with rfl | ⟨d, hd, rfl⟩
  · exact ⟨by decide, by decide, by decide, by decide, by decide⟩
  · have h := digitChar10_facts d hd
    exact ⟨h.2.1, h.2.2.1, h.2.2.2.1, h.2.2.2.2.1, h.2.2.2.2.2.1⟩

/-- Dropping while a predicate fails on every element is the identity. -/
theorem dropWhile_eq_self (p : Char → Bool) (s : PyStr)
    (h : ∀ c ∈ s, p c = false) : s.dropWhile p = s := by
  cases s with
  | nil => rfl
  | cons c rest => simp [List.dropWhile_cons, h c (List.mem_cons_self c rest)]

/-- Stripping a string with no whitespace is the identity. -/
theorem stripPy_of_no_ws (s : PyStr) (h : ∀ c ∈ s, pyWS c = false) :
    stripPy s = s := by
  rw [stripPy, dropWhile_eq_self _ s h,
    dropWhile_eq_self _ s.reverse (fun c hc => h c (by simpa using hc)),
    List.reverse_reverse]

/-- Case equation of `splitUnderscore` at an ordinary character. -/
theorem splitUnderscore_other (c : Char) (hc : c ≠ '_') (rest : PyStr) :
    splitUnderscore (c :: rest)
      = match splitUnderscore rest with
        | [] => [[c]]
        | g :: gs => (c :: g) :: gs := by
  rw [splitUnderscore.eq_def]
  split
  · rename_i h; cases h
  · rename_i h; injection h with h1 _; exact absurd h1.symm (fun hh => hc hh.symm)
  · rename_i hno h
    injection h with h1 h2
    subst h1
    subst h2
    rfl

/-- Splitting at underscores of an underscore-free string gives the
single group. -/
theorem splitUnderscore_no (s : PyStr) (h : '_' ∉ s) : splitUnderscore s = [s] := by
  induction s with
  | nil => rfl
  | cons c rest ih =>
    have hc : c ≠ '_' := fun hh => h (hh ▸ List.mem_cons_self c rest)
    rw [splitUnderscore_other c hc rest, ih (fun hh => h (List.mem_cons_of_mem _ hh))]

/-- An underscore-free all-digit nonempty string is a valid integer
literal body. -/
theorem digitsOkPy_of (s : PyStr) (hne : s ≠ []) (hu : '_' ∉ s)
    (hd : ∀ c ∈ s, c.isDigit = true) : digitsOkPy s = true := by
  rw [digitsOkPy, splitUnderscore_no s hu]
  simp [List.all_eq_true, hne, List.isEmpty_iff]
  exact hd

/-- Removing underscores from an underscore-free string is the
identity. -/
theorem removeUnderscores_id (s : PyStr) (hu : '_' ∉ s) :
    removeUnderscores s = s := by
  rw [removeUnderscores, List.filter_eq_self]
  intro c hc
  simp only [ne_eq, decide_eq_true_eq]
  exact fun hh => hu (hh ▸ hc)

/-- Zero padding does not change the decimal value. -/
theorem digitsVal_pad (k : Nat) (s : PyStr) :
    digitsVal (List.replicate k '0' ++ s) = digitsVal s := by
  simp only [digitsVal, List.foldl_append]
  have h0 : List.foldl (fun a c => 10 * a + digitVal c) 0 (List.replicate k '0') = 0 := by
    induction k with
    | zero => rfl
    | succ m ihm => simpa [List.replicate_succ] using ihm
  rw [h0]

/-- The head given by `head?` is a member. -/
theorem head?_mem (s : PyStr) (c : Char) (h : s.head? = some c) : c ∈ s := by
  cases s with
  | nil => cases h
  | cons a rest =>
    simp only [List.head?_cons, Option.some.injEq] at h
    subst h
    exact List.mem_cons_self a rest

/-- `parseIntPy` on a nonempty all-digit string (no sign, no
underscore, no whitespace). -/
theorem parseIntPy_digits (s : PyStr) (hne : s ≠ [])
    (hd : ∀ c ∈ s, c.isDigit = true) (hns : ∀ c ∈ s, pyWS c = false)
    (hu : '_' ∉ s) (hplus : s.head? ≠ some '+') (hminus : s.head? ≠ some '-') :
    parseIntPy s = some ((digitsVal s : Int)) := by
  unfold parseIntPy
  rw [stripPy_of_no_ws s hns]
  split
  · simp at hplus
  · simp at hminus
  · simp [digitsOkPy_of s hne hu hd, removeUnderscores_id s hu]

/-- `parseIntPy` on a minus sign followed by digits. -/
theorem parseIntPy_neg (s : PyStr) (hne : s ≠ [])
    (hd : ∀ c ∈ s, c.isDigit = true) (hns : ∀ c ∈ s, pyWS c = false)
    (hu : '_' ∉ s) :
    parseIntPy ('-' :: s) = some (-(digitsVal s : Int)) := by
  unfold parseIntPy
  have hns' : ∀ c ∈ '-' :: s, pyWS c = false := by
    intro c hc
    rcases List.mem_cons.mp hc with rfl | h
    · decide
    · exact hns c h
  rw [stripPy_of_no_ws _ hns']
  simp [digitsOkPy_of s hne hu hd, removeUnderscores_id s hu]

/-- Properties of a zero-padded digit expansion. -/
theorem padDigits_props (k m : Nat) :
    (List.replicate k '0' ++ natToDigits m) ≠ [] ∧
    (∀ c ∈ List.replicate k '0' ++ natToDigits m, c.isDigit = true) ∧
    (∀ c ∈ List.replicate k '0' ++ natToDigits m, pyWS c = false) ∧
    '_' ∉ (List.replicate k '0' ++ natToDigits m) ∧
    digitsVal (List.replicate k '0' ++ natToDigits m) = m := by
  have hspec := natToDigitsAux_spec (m + 1) m (by omega)
  have hmem : ∀ c ∈ List.replicate k '0' ++ natToDigits m,
      ∃ d, d < 10 ∧ c = digitChar10 d := by
    intro c hc
    rcases List.mem_append.mp hc with h1 | h2
    · exact ⟨0, by omega, List.eq_of_mem_replicate h1⟩
    · exact hspec.2.2 c h2
  refine ⟨?_, ?_, ?_, ?_, ?_⟩
  · intro h
    rcases List.append_eq_nil.mp h with ⟨_, h2⟩
    exact hspec.1 h2
  · intro c hc
    obtain ⟨d, hd, rfl⟩ := hmem c hc
    exact (digitChar10_facts d hd).1
  · intro c hc
    obtain ⟨d, hd, rfl⟩ := hmem c hc
    exact (digitChar10_facts d hd).2.2.1
  · intro hc
    obtain ⟨d, hd, h⟩ := hmem '_' hc
    exact (digitChar10_facts d hd).2.2.2.2.2.1 h.symm
  · rw [digitsVal_pad]
    exact hspec.2.1

/-- Python `int` reads `f"{n:03d}"` back exactly. -/
theorem parseIntPy_format03d (id : Int) : parseIntPy (format03d id) = some id := by
  by_cases hneg : id < 0
  · obtain ⟨hne, hd, hns, hu, hval⟩ :=
      padDigits_props (3 - (1 + (natToDigits id.natAbs).length)) id.natAbs
    rw [show format03d id
        = '-' :: (List.replicate (3 - (1 + (natToDigits id.natAbs).length)) '0'
            ++ natToDigits id.natAbs) from by simp [format03d, hneg]]
    rw [parseIntPy_neg _ hne hd hns hu, hval]
    have habs : (id.natAbs : Int) = -id := Int.ofNat_natAbs_of_nonpos (by omega)
    rw [habs, neg_neg]
  · obtain ⟨hne, hd, hns, hu, hval⟩ :=
      padDigits_props (3 - (natToDigits id.natAbs).length) id.natAbs
    have hplus : (List.replicate (3 - (natToDigits id.natAbs).length) '0'
        ++ natToDigits id.natAbs).head? ≠ some '+' := by
      intro h
      exact absurd (hd '+' (head?_mem _ _ h)) (by decide)
    have hminus : (List.replicate (3 - (natToDigits id.natAbs).length) '0'
        ++ natToDigits id.natAbs).head? ≠ some '-' := by
      intro h
      exact absurd (hd '-' (head?_mem _ _ h)) (by decide)
    rw [show format03d id
        = List.replicate (3 - (natToDigits id.natAbs).length) '0'
            ++ natToDigits id.natAbs from by simp [format03d, hneg]]
    rw [parseIntPy_digits _ hne hd hns hu hplus hminus, hval]
    congr 1
    exact Int.natAbs_of_nonneg (show (0 : Int) ≤ id by omega)

/-!
Well-formedness predicates for the queue round-trip.
-/

/-- A field value as the renderer writes and the parser reads it:
already stripped and line-break free. -/
def fieldClean (f : PyStr) : Prop := stripPy f = f ∧ lineClean f

/-- A status as the marker line can carry it: a clean field with no
brackets. -/
def statusOk (s : PyStr) : Prop := fieldClean s ∧ '[' ∉ s ∧ ']' ∉ s

/-- A body line that does not collide with the parser's marker and
`text:` tests. -/
def textLineOk (l : PyStr) : Prop :=
  markerLine l = false ∧ startsWithPy (pys "text:") l = false

/-- Body of a non-final item: empty, or newline-terminated, not
starting with a newline, with no line-boundary characters other than
`\n` and with collision-free lines. -/
def textOkMid (t : PyStr) : Prop :=
  t = [] ∨ (t.head? ≠ some '\n' ∧ t.getLast? = some '\n' ∧ nlOnly t ∧
    ∀ l ∈ splitlinesPy t, textLineOk l)

/-- Body of the final item: empty, or not newline-terminated, not
starting with a newline, with no line-boundary characters other than
`\n` and with collision-free lines. -/
def textOkLast (t : PyStr) : Prop :=
  t = [] ∨ (t.head? ≠ some '\n' ∧ t.getLast? ≠ some '\n' ∧ nlOnly t ∧
    ∀ l ∈ splitlinesPy t, textLineOk l)

/-- The scalar fields of an item are clean. -/
def fieldsOk (it : QueueItem) : Prop :=
  statusOk it.status ∧ fieldClean it.type ∧ fieldClean it.lang ∧
  fieldClean it.source ∧ fieldClean it.note

/-- Chained body conditions: every non-final item needs a mid body,
the final item a last body. -/
def chainOk : QueueItem → List QueueItem → Prop
  | p, [] => textOkLast p.text
  | p, i :: rest => textOkMid p.text ∧ fieldsOk i ∧ chainOk i rest

/-- Well-formedness of a whole item list. -/
def itemsOk : List QueueItem → Prop
  | [] => True
  | i :: rest => fieldsOk i ∧ chainOk i rest

/-- Every item of a chain has clean fields and a body whose only
line-boundary characters are newlines. -/
theorem chainOk_mem : ∀ (items : List QueueItem) (p : QueueItem),
    chainOk p items → ∀ i ∈ items, fieldsOk i ∧ (i.text = [] ∨ nlOnly i.text) := by
  intro items
  induction items with
  | nil => intro p _ i hi; cases hi
  | cons j rest ih =>
    intro p h i hi
    obtain ⟨hmid, hfj, hchain⟩ := h
    rcases List.mem_cons.mp hi with rfl | hi'
    · refine ⟨hfj, ?_⟩
      cases rest with
      | nil =>
        rcases hchain with h0 | hlast
        · exact Or.inl h0
        · exact Or.inr hlast.2.2.1
      | cons k rest' =>
        rcases hchain.1 with h0 | hmid'
        · exact Or.inl h0
        · exact Or.inr hmid'.2.2.1
    · exact ih j hchain i hi'

/-!
Cleanliness of the rendered lines.
-/

/-- Appending preserves cleanliness. -/
theorem lineClean_append (a b : PyStr) (ha : lineClean a) (hb : lineClean b) :
    lineClean (a ++ b) := by
  intro c hc
  rcases List.mem_append.mp hc with h | h
  · exact ha c h
  · exact hb c h

/-- Lines produced by `splitlinesAux` on an `nlOnly` input are clean. -/
theorem splitlinesAux_clean : ∀ (t acc : PyStr), nlOnly t → lineClean acc →
    ∀ l ∈ splitlinesAux t acc, lineClean l := by
  intro t
  induction t with
  | nil =>
    intro acc _ hacc l hl
    rw [splitlinesAux_empty] at hl
    by_cases h : acc.isEmpty = true
    · rw [if_pos h] at hl
      cases hl
    · rw [if_neg h, List.mem_singleton] at hl
      subst hl
      intro c hc
      exact hacc c (by simpa using hc)
  | cons c t' ih =>
    intro acc hr hacc l hl
    have hr' : nlOnly t' := nlOnly_tail c t' hr
    by_cases h1 : c = '\n'
    · subst h1
      rw [splitlinesAux_nl] at hl
      rcases List.mem_cons.mp hl with rfl | hl'
      · intro x hx
        exact hacc x (by simpa using hx)
      · exact ih [] hr' (fun x hx => absurd hx (List.not_mem_nil x)) l hl'
    · rw [splitlinesAux_other c (nlOnly_head_other c t' hr h1)] at hl
      refine ih (c :: acc) hr' ?_ l hl
      intro x hx
      rcases List.mem_cons.mp hx with rfl | hx'
      · exact nlOnly_head_other _ _ hr h1
      · exact hacc x hx'

/-- Every line the renderer emits for a well-formed item is clean. -/
theorem itemLines_clean (it : QueueItem) (hf : fieldsOk it)
    (htext : it.text = [] ∨ nlOnly it.text) : ∀ l ∈ itemLines it, lineClean l := by
  obtain ⟨⟨⟨_, hstc⟩, _, _⟩, ⟨_, htc⟩, ⟨_, hlc⟩, ⟨_, hsc⟩, ⟨_, hnc⟩⟩ := hf
  intro l hl
  simp only [itemLines, List.cons_append, List.nil_append, List.mem_cons] at hl
  rcases hl with rfl | rfl | rfl | rfl | rfl | rfl | rfl | hl
  · exact fun c hc => absurd hc (List.not_mem_nil c)
  · refine lineClean_append _ _ (lineClean_append _ _ (lineClean_append _ _
      (lineClean_append _ _ (by decide) ?_) (by decide)) hstc) (by decide)
    intro c hc
    exact (format03d_char_facts it.item_id c hc).1
  · exact lineClean_append _ _ (by decide) htc
  · exact lineClean_append _ _ (by decide) hlc
  · exact lineClean_append _ _ (by decide) hsc
  · exact lineClean_append _ _ (by decide) hnc
  · exact (by decide)
  · rcases htext with h0 | hnr
    · rw [h0] at hl
      cases hl
    · exact splitlinesAux_clean it.text [] hnr
        (fun x hx => absurd hx (List.not_mem_nil x)) l hl

/-- Splitting the newline-join (plus trailing newline) of clean lines
recovers the lines. -/
theorem splitlines_joinNl (ls : List PyStr) :
    ls ≠ [] → (∀ l ∈ ls, lineClean l) →
    splitlinesPy (joinNl ls ++ ['\n']) = ls := by
  induction ls with
  | nil => intro h _; cases h rfl
  | cons x tl ih =>
    intro _ hclean
    cases tl with
    | nil =>
      show splitlinesAux (x ++ '\n' :: []) [] = [x]
      rw [splitlinesAux_line x (hclean x (by simp)) [] []]
      simp [splitlinesAux_empty]
    | cons y tl' =>
      rw [joinNl_cons x (y :: tl') (by simp), List.append_assoc, List.cons_append]
      show splitlinesAux (x ++ '\n' :: (joinNl (y :: tl') ++ ['\n'])) [] = _
      rw [splitlinesAux_line x (hclean x (by simp)) []]
      rw [show splitlinesAux (joinNl (y :: tl') ++ ['\n']) []
          = splitlinesPy (joinNl (y :: tl') ++ ['\n']) from rfl]
      rw [ih (by simp) (fun l hl => hclean l (by simp [hl]))]
      simp

/-!
Marker-line parsing lemmas.
-/

/-- A string is a prefix of itself followed by anything. -/
theorem startsWith_append_self : ∀ (p r : PyStr), startsWithPy p (p ++ r) = true := by
  intro p r
  induction p with
  | nil => rfl
  | cons c ps ih => simp [startsWithPy, ih]

/-- Lines built on the `## Item ` literal are marker lines. -/
theorem markerLine_marker (r : PyStr) : markerLine (pys "## Item " ++ r) = true :=
  startsWith_append_self (pys "## Item ") r

/-- The first two whitespace tokens of a marker line. -/
theorem splitWs_prefix8 (r : PyStr) :
    splitWsAux (pys "## Item " ++ r) [] = pys "##" :: pys "Item" :: splitWsAux r [] := rfl

/-- Consuming one whitespace-free token up to a following space. -/
theorem splitWsAux_token : ∀ (tok : PyStr), tok ≠ [] →
    (∀ c ∈ tok, pyWS c = false) →
    ∀ (acc rest : PyStr), splitWsAux (tok ++ ' ' :: rest) acc
      = (acc.reverse ++ tok) :: splitWsAux rest [] := by
  intro tok
  induction tok with
  | nil => intro h; cases h rfl
  | cons c tok' ih =>
    intro _ hclean acc rest
    have hc : pyWS c = false := hclean c (by simp)
    have hsp : pyWS ' ' = true := by decide
    cases tok' with
    | nil =>
      simp [splitWsAux, hc, hsp]
    | cons d tok'' =>
      rw [List.cons_append,
        show splitWsAux (c :: (d :: tok'' ++ ' ' :: rest)) acc
          = splitWsAux (d :: tok'' ++ ' ' :: rest) (c :: acc) from by simp [splitWsAux, hc],
        ih (by simp) (fun x hx => hclean x (by simp [hx])) (c :: acc) rest]
      simp

/-- The id token of a rendered marker line is the formatted id. -/
theorem splitWs_marker (F S : PyStr) (hF : F ≠ [])
    (hFc : ∀ c ∈ F, pyWS c = false) :
    (splitWs (pys "## Item " ++ (F ++ (' ' :: '[' :: (S ++ [']']))))).get? 2
      = some F := by
  rw [splitWs, splitWs_prefix8, splitWsAux_token F hF hFc [] ('[' :: (S ++ [']']))]
  rfl

/-- Character membership gives substring membership for a one-character
pattern. -/
theorem inPy_of_mem (c : Char) : ∀ s, c ∈ s → inPy [c] s = true := by
  intro s
  induction s with
  | nil => intro h; cases h
  | cons d rest ih =>
    intro h
    rcases List.mem_cons.mp h with rfl | h'
    · simp [inPy, startsWithPy]
    · simp [inPy, ih h']

/-- First-index through a part that lacks the character. -/
theorem firstIdx_append (ch : Char) : ∀ (a b : PyStr), ch ∉ a →
    firstIdx ch (a ++ b) = a.length + firstIdx ch b := by
  intro a
  induction a with
  | nil => intro b _; simp
  | cons c a' ih =>
    intro b h
    have hc : c ≠ ch := fun hh => h (hh ▸ List.mem_cons_self c a')
    simp only [List.cons_append, firstIdx, List.append_eq]
    rw [if_neg (by simpa using hc), ih b (fun hh => h (List.mem_cons_of_mem _ hh))]
    simp only [List.length_cons]
    omega

/-- Status extraction on a line of the rendered marker shape. -/
theorem parseMarkerStatus_shape (pre S : PyStr) (hp1 : '[' ∉ pre) (hp2 : ']' ∉ pre)
    (_hS1 : '[' ∉ S) (hS2 : ']' ∉ S) :
    parseMarkerStatus (pre ++ ('[' :: (S ++ [']']))) = stripPy S := by
  have hmem1 : '[' ∈ pre ++ ('[' :: (S ++ [']'])) := by simp
  have hmem2 : ']' ∈ pre ++ ('[' :: (S ++ [']'])) := by simp
  have hin1 : inPy (pys "[") (pre ++ ('[' :: (S ++ [']']))) = true := inPy_of_mem '[' _ hmem1
  have hin2 : inPy (pys "]") (pre ++ ('[' :: (S ++ [']']))) = true := inPy_of_mem ']' _ hmem2
  have hidx1 : firstIdx '[' (pre ++ ('[' :: (S ++ [']']))) = pre.length := by
    rw [firstIdx_append '[' pre _ hp1]
    simp [firstIdx]
  have hidx2 : firstIdx ']' (pre ++ ('[' :: (S ++ [']']))) = pre.length + 1 + S.length := by
    rw [firstIdx_append ']' pre _ hp2]
    simp only [firstIdx]
    rw [if_neg (by decide), firstIdx_append ']' S [']'] hS2]
    simp [firstIdx]
    omega
  have hdrop : (pre ++ ('[' :: (S ++ [']']))).drop (pre.length + 1) = S ++ [']'] := by
    rw [show pre ++ ('[' :: (S ++ [']'])) = (pre ++ ['[']) ++ (S ++ [']']) from by simp,
      show pre.length + 1 = (pre ++ ['[']).length from by simp]
    exact List.drop_left _ _
  rw [parseMarkerStatus, if_pos (by rw [hin1, hin2]; rfl), hidx1, hidx2, hdrop]
  rw [show pre.length + 1 + S.length - (pre.length + 1) = S.length from by omega]
  rw [List.take_left]

/-!
Single-step parser lemmas.
-/

/-- The text body as it stands after re-parsing without its trailing
newline. -/
def preText (t : PyStr) : PyStr := joinNl (splitlinesPy t)

/-- An item whose body still lacks its trailing blank-line merge. -/
def pre (p : QueueItem) : QueueItem := { p with text := preText p.text }

/-- `pys " ["` prepends its two characters. -/
theorem spaceBracket_cons (X : PyStr) : pys " [" ++ X = ' ' :: '[' :: X := rfl

/-- `pys "]"` as a singleton. -/
theorem pys_rb : pys "]" = [']'] := rfl

/-- The rendered lines of one item, right-associated. -/
theorem itemLines_eq (it : QueueItem) :
    itemLines it
      = [] :: (pys "## Item " ++ (format03d it.item_id
            ++ (' ' :: '[' :: (it.status ++ [']']))))
        :: (pys "type: " ++ it.type) :: (pys "lang: " ++ it.lang)
        :: (pys "source: " ++ it.source) :: (pys "note: " ++ it.note)
        :: pys "text:" :: splitlinesPy it.text := by
  simp [itemLines, List.append_assoc, spaceBracket_cons, pys_rb]

/-- A header-phase line is appended to the header. -/
theorem pstep_header (st : PState) (l : PyStr) (hcur : st.current = none)
    (hl : markerLine l = false) :
    pstep st l = some { st with header := st.header ++ [l] } := by
  unfold pstep
  rw [hl, hcur]
  rfl

/-- A body-capture line is accumulated into the open item's text. -/
theorem pstep_textstep (st : PState) (cur : QueueItem) (l : PyStr)
    (hcur : st.current = some cur) (hit : st.in_text = true)
    (hl1 : markerLine l = false) (hl2 : startsWithPy (pys "text:") l = false) :
    pstep st l = some { st with current := some { cur with text := accText cur.text l } } := by
  unfold pstep
  rw [hl1, hcur, hl2, hit]
  rfl

/-- A `text:` line switches to body capture and clears the text. -/
theorem pstep_text_line (st : PState) (cur : QueueItem)
    (hcur : st.current = some cur) :
    pstep st (pys "text:")
      = some { st with in_text := true, current := some { cur with text := [] } } := by
  unfold pstep
  rw [hcur]
  rfl

/-- A `type: v` line sets the type field of the open item. -/
theorem pstep_field_type (st : PState) (cur : QueueItem) (v : PyStr)
    (hcur : st.current = some cur) (hit : st.in_text = false) (hv : stripPy v = v) :
    pstep st (pys "type: " ++ v)
      = some { st with current := some { cur with type := v } } := by
  have h1 : pstep st (pys "type: " ++ v)
      = some { st with current := some { cur with type := stripPy v } } := by
    unfold pstep
    rw [hcur, hit]
    rfl
  rw [h1, hv]

/-- A `lang: v` line sets the lang field of the open item. -/
theorem pstep_field_lang (st : PState) (cur : QueueItem) (v : PyStr)
    (hcur : st.current = some cur) (hit : st.in_text = false) (hv : stripPy v = v) :
    pstep st (pys "lang: " ++ v)
      = some { st with current := some { cur with lang := v } } := by
  have h1 : pstep st (pys "lang: " ++ v)
      = some { st with current := some { cur with lang := stripPy v } } := by
    unfold pstep
    rw [hcur, hit]
    rfl
  rw [h1, hv]

/-- A `source: v` line sets the source field of the open item. -/
theorem pstep_field_source (st : PState) (cur : QueueItem) (v : PyStr)
    (hcur : st.current = some cur) (hit : st.in_text = false) (hv : stripPy v = v) :
    pstep st (pys "source: " ++ v)
      = some { st with current := some { cur with source := v } } := by
  have h1 : pstep st (pys "source: " ++ v)
      = some { st with current := some { cur with source := stripPy v } } := by
    unfold pstep
    rw [hcur, hit]
    rfl
  rw [h1, hv]

/-- A `note: v` line sets the note field of the open item. -/
theorem pstep_field_note (st : PState) (cur : QueueItem) (v : PyStr)
    (hcur : st.current = some cur) (hit : st.in_text = false) (hv : stripPy v = v) :
    pstep st (pys "note: " ++ v)
      = some { st with current := some { cur with note := v } } := by
  have h1 : pstep st (pys "note: " ++ v)
      = some { st with current := some { cur with note := stripPy v } } := by
    unfold pstep
    rw [hcur, hit]
    rfl
  rw [h1, hv]

/-- A rendered marker line flushes the open item and opens a fresh one
with the formatted id and status read back. -/
theorem pstep_marker (st : PState) (it : QueueItem) (hfO : fieldsOk it) :
    pstep st (pys "## Item " ++ (format03d it.item_id
        ++ (' ' :: '[' :: (it.status ++ [']']))))
      = some { flushCurrent st with in_text := false, current := some ⟨it.item_id, it.status, [], [], [], [], []⟩ } := by
  obtain ⟨⟨⟨hstrip, hstc⟩, hlb, hrb⟩, _⟩ := hfO
  have hpre1 : '[' ∉ pys "## Item " ++ (format03d it.item_id ++ [' ']) := by
    intro hm
    rcases List.mem_append.mp hm with hA | hB
    · exact absurd hA (by decide)
    · rcases List.mem_append.mp hB with hC | hD
      · exact (format03d_char_facts it.item_id '[' hC).2.2.1 rfl
      · exact absurd hD (by decide)
  have hpre2 : ']' ∉ pys "## Item " ++ (format03d it.item_id ++ [' ']) := by
    intro hm
    rcases List.mem_append.mp hm with hA | hB
    · exact absurd hA (by decide)
    · rcases List.mem_append.mp hB with hC | hD
      · exact (format03d_char_facts it.item_id ']' hC).2.2.2.1 rfl
      · exact absurd hD (by decide)
  have hshape : pys "## Item " ++ (format03d it.item_id
        ++ (' ' :: '[' :: (it.status ++ [']'])))
      = (pys "## Item " ++ (format03d it.item_id ++ [' ']))
        ++ ('[' :: (it.status ++ [']'])) := by
    simp
  have hstatus : parseMarkerStatus (pys "## Item " ++ (format03d it.item_id
        ++ (' ' :: '[' :: (it.status ++ [']'])))) = it.status := by
    rw [hshape, parseMarkerStatus_shape _ _ hpre1 hpre2 hlb hrb, hstrip]
  unfold pstep
  rw [markerLine_marker, if_pos rfl,
    splitWs_marker (format03d it.item_id) it.status (format03d_ne_nil _)
      (fun c hc => (format03d_char_facts _ c hc).2.1)]
  simp [parseIntPy_format03d, hstatus]

/-!
Parse-loop composition lemmas.
-/

/-- One successful step advances the fold. -/
theorem foldParse_cons (st : PState) (l : PyStr) (ls : List PyStr) (st' : PState)
    (h : pstep st l = some st') : foldParse st (l :: ls) = foldParse st' ls := by
  simp [foldParse, h]

/-- The fold splits over appended line lists. -/
theorem foldParse_append (a b : List PyStr) : ∀ st, foldParse st (a ++ b)
    = match foldParse st a with
      | none => none
      | some st' => foldParse st' b := by
  induction a with
  | nil => intro st; rfl
  | cons l a' ih =>
    intro st
    cases hstep : pstep st l with
    | none => simp [foldParse, hstep]
    | some st' => simp [foldParse, hstep, ih st']

/-- Folding header lines appends them to the header. -/
theorem foldParse_header (hs : List PyStr) : ∀ st, st.current = none →
    (∀ l ∈ hs, markerLine l = false) →
    foldParse st hs = some { st with header := st.header ++ hs } := by
  induction hs with
  | nil =>
    intro st _ _
    rw [List.append_nil]
    exact rfl
  | cons l ls ih =>
    intro st hcur hh
    rw [foldParse_cons st l ls _ (pstep_header st l hcur (hh l (by simp)))]
    rw [ih { st with header := st.header ++ [l] } hcur (fun x hx => hh x (by simp [hx]))]
    simp

/-- Folding body lines accumulates them into the open item's text. -/
theorem foldParse_textlines (ls : List PyStr) : ∀ st cur, st.current = some cur →
    st.in_text = true → (∀ l ∈ ls, textLineOk l) →
    foldParse st ls
      = some { st with current := some { cur with text := ls.foldl accText cur.text } } := by
  induction ls with
  | nil =>
    intro st cur hcur _ _
    simp only [foldParse, List.foldl_nil]
    rw [show ({ cur with text := cur.text } : QueueItem) = cur from rfl, ← hcur]
  | cons l ls' ih =>
    intro st cur hcur hit hok
    have hl := hok l (by simp)
    rw [foldParse_cons st l ls' _ (pstep_textstep st cur l hcur hit hl.1 hl.2)]
    rw [ih { st with current := some { cur with text := accText cur.text l } }
      { cur with text := accText cur.text l } rfl hit
      (fun x hx => hok x (by simp [hx]))]
    rfl

/-- Non-leading lines accumulate as a newline-join. -/
theorem foldl_accText (ls : List PyStr) : ∀ t, t ≠ [] →
    List.foldl accText t ls = joinNl (t :: ls) := by
  induction ls with
  | nil => intro t _; rfl
  | cons l ls' ih =>
    intro t ht
    have hstep : accText t l = t ++ '\n' :: l := by
      rw [accText, if_neg (by simpa [List.isEmpty_iff] using ht)]
    rw [List.foldl_cons, hstep, ih (t ++ '\n' :: l) (by simp)]
    cases ls' with
    | nil => simp [joinNl]
    | cons m ms =>
      rw [joinNl_cons _ (m :: ms) (by simp), joinNl_cons t (l :: m :: ms) (by simp),
        joinNl_cons l (m :: ms) (by simp)]
      simp

/-- The empty body stays empty, a well-formed body re-accumulates to
its newline-join. -/
theorem foldl_accText_nil (t : PyStr) (hhead : t.head? ≠ some '\n')
    (hr : nlOnly t) : (splitlinesPy t).foldl accText [] = preText t := by
  cases t with
  | nil => rfl
  | cons c t' =>
    have hc1 : c ≠ '\n' := by
      intro hh
      subst hh
      simp at hhead
    have hsp : splitlinesPy (c :: t') = splitlinesAux t' [c] := by
      rw [splitlinesPy, splitlinesAux_other c (nlOnly_head_other c t' hr hc1)]
    rcases hne : splitlinesAux t' [c] with _ | ⟨l, ls⟩
    · exact absurd ((splitlinesAux_eq_nil t' [c]).mp hne).2 (by simp)
    · have hl : l ≠ [] := splitlinesAux_head_ne t' [c] (by simp) l ls hne
      rw [preText, hsp, hne, List.foldl_cons,
        show accText [] l = l from rfl, foldl_accText ls l hl]

/-- The separator blank line closes a mid-chain body back to the
original text. -/
theorem accText_preText_blank (t : PyStr) (h : textOkMid t) :
    accText (preText t) [] = t := by
  rcases h with rfl | ⟨hhead, hlast, hr, _⟩
  · rfl
  · have htne : t ≠ [] := by
      intro hh
      subst hh
      simp at hlast
    have hpne : preText t ≠ [] := by
      cases t with
      | nil => cases htne rfl
      | cons c t' =>
        have hc1 : c ≠ '\n' := by
          intro hh
          subst hh
          simp at hhead
        rcases hne : splitlinesAux t' [c] with _ | ⟨l, ls⟩
        · exact absurd ((splitlinesAux_eq_nil t' [c]).mp hne).2 (by simp)
        · have hl : l ≠ [] := splitlinesAux_head_ne t' [c] (by simp) l ls hne
          rw [preText, splitlinesPy, splitlinesAux_other c (nlOnly_head_other c t' hr hc1), hne]
          cases ls with
          | nil => simpa [joinNl] using hl
          | cons m ms =>
            rw [joinNl_cons l (m :: ms) (by simp)]
            simp [hl]
    rw [accText, if_neg (by simpa [List.isEmpty_iff] using hpne), preText]
    exact joinNl_splitlinesAux_nl t [] hr htne hlast

/-- A last-item body re-parses to itself. -/
theorem preText_last (t : PyStr) (h : textOkLast t) : preText t = t := by
  rcases h with rfl | ⟨_, hlast, hr, _⟩
  · rfl
  · exact joinNl_splitlines t hr hlast

/-- Folding the field, `text:` and body lines of one rendered item. -/
theorem foldParse_fields (st : PState) (cur : QueueItem) (v1 v2 v3 v4 : PyStr)
    (tl : List PyStr) (hcur : st.current = some cur) (hit : st.in_text = false)
    (h1 : stripPy v1 = v1) (h2 : stripPy v2 = v2) (h3 : stripPy v3 = v3)
    (h4 : stripPy v4 = v4) (htl : ∀ l ∈ tl, textLineOk l) :
    foldParse st ((pys "type: " ++ v1) :: (pys "lang: " ++ v2) :: (pys "source: " ++ v3)
      :: (pys "note: " ++ v4) :: pys "text:" :: tl)
    = some { st with in_text := true, current := some { cur with type := v1, lang := v2, source := v3, note := v4, text := tl.foldl accText [] } } := by
  rw [foldParse_cons _ _ _ _ (pstep_field_type st cur v1 hcur hit h1)]
  rw [foldParse_cons _ _ _ _
    (pstep_field_lang { st with current := some { cur with type := v1 } }
      { cur with type := v1 } v2 rfl hit h2)]
  rw [foldParse_cons _ _ _ _
    (pstep_field_source { st with current := some { cur with type := v1, lang := v2 } }
      { cur with type := v1, lang := v2 } v3 rfl hit h3)]
  rw [foldParse_cons _ _ _ _
    (pstep_field_note { st with current := some { cur with type := v1, lang := v2, source := v3 } }
      { cur with type := v1, lang := v2, source := v3 } v4 rfl hit h4)]
  rw [foldParse_cons _ _ _ _
    (pstep_text_line { st with current := some { cur with type := v1, lang := v2, source := v3, note := v4 } }
      { cur with type := v1, lang := v2, source := v3, note := v4 } rfl)]
  rw [foldParse_textlines tl
    { st with in_text := true, current := some { cur with type := v1, lang := v2, source := v3, note := v4, text := [] } }
    { cur with type := v1, lang := v2, source := v3, note := v4, text := [] } rfl rfl htl]

/-- Splitting a successful prefix fold off an appended line list. -/
theorem foldParse_append_some (a b : List PyStr) (st st' : PState)
    (h : foldParse st a = some st') : foldParse st (a ++ b) = foldParse st' b := by
  rw [foldParse_append a b st, h]

/-- The self conditions on an item's own body, extracted from its
chain. -/
theorem chainOk_self_text : ∀ (rest : List QueueItem) (i : QueueItem), chainOk i rest →
    i.text = [] ∨ (i.text.head? ≠ some '\n' ∧ nlOnly i.text ∧
      ∀ l ∈ splitlinesPy i.text, textLineOk l) := by
  intro rest i h
  cases rest with
  | nil =>
    rcases h with h0 | ⟨h1, _, h3, h4⟩
    · exact Or.inl h0
    · exact Or.inr ⟨h1, h3, h4⟩
  | cons j rest' =>
    rcases h.1 with h0 | ⟨h1, _, h3, h4⟩
    · exact Or.inl h0
    · exact Or.inr ⟨h1, h3, h4⟩

/-- `getLastD` over a cons. -/
theorem getLastD_cons' (a : QueueItem) (l : List QueueItem) (d : QueueItem) :
    (a :: l).getLastD d = l.getLastD a := by
  cases l <;> simp [List.getLastD]

/-- Folding the rendered blocks of a chain of items: the previous item
is closed exactly, each item is flushed exactly, and the final item
stays open in its pre-merge form. -/
theorem foldParse_chain : ∀ (items : List QueueItem) (p : QueueItem) (st : PState),
    st.current = some (pre p) → st.in_text = true → chainOk p items →
    foldParse st ((items.map itemLines).flatten)
      = some ⟨st.header, st.items ++ (p :: items).dropLast,
              some (pre (items.getLastD p)), true⟩ := by
  intro items
  induction items with
  | nil =>
    intro p st hcur hit _
    obtain ⟨sh, si, sc, sit⟩ := st
    obtain rfl : sc = some (pre p) := hcur
    obtain rfl : sit = true := hit
    simp [foldParse, List.getLastD]
  | cons i rest ih =>
    intro p st hcur hit hchain
    obtain ⟨hmid, hfi, hchainrest⟩ := hchain
    obtain ⟨sh, si, sc, sit⟩ := st
    obtain rfl : sc = some (pre p) := hcur
    obtain rfl : sit = true := hit
    have hlines : ∀ l ∈ splitlinesPy i.text, textLineOk l := by
      rcases chainOk_self_text rest i hchainrest with h0 | ⟨h1, h3, h4⟩
      · rw [h0]
        intro l hl
        cases hl
      · exact h4
    have htext_eq : (splitlinesPy i.text).foldl accText [] = preText i.text := by
      rcases chainOk_self_text rest i hchainrest with h0 | ⟨h1, h3, h4⟩
      · rw [h0]
        rfl
      · exact foldl_accText_nil i.text h1 h3
    have hfi2 := hfi
    obtain ⟨hst0, ⟨ht1, ht1c⟩, ⟨ht2, ht2c⟩, ⟨ht3, ht3c⟩, ⟨ht4, ht4c⟩⟩ := hfi2
    have hx : accText (pre p).text [] = p.text := accText_preText_blank p.text hmid
    have s1 : pstep (⟨sh, si, some (pre p), true⟩ : PState) []
        = some ⟨sh, si, some p, true⟩ := by
      rw [pstep_textstep ⟨sh, si, some (pre p), true⟩ (pre p) [] rfl rfl
        (by decide) (by decide), hx]
      exact rfl
    have s2 : pstep (⟨sh, si, some p, true⟩ : PState)
        (pys "## Item " ++ (format03d i.item_id
          ++ (' ' :: '[' :: (i.status ++ [']']))))
        = some ⟨sh, si ++ [p], some ⟨i.item_id, i.status, [], [], [], [], []⟩, false⟩ := by
      rw [pstep_marker ⟨sh, si, some p, true⟩ i hfi]
      exact rfl
    have s3 : foldParse (⟨sh, si ++ [p], some ⟨i.item_id, i.status, [], [], [], [], []⟩, false⟩ : PState)
        ((pys "type: " ++ i.type) :: (pys "lang: " ++ i.lang) :: (pys "source: " ++ i.source)
          :: (pys "note: " ++ i.note) :: pys "text:" :: splitlinesPy i.text)
        = some ⟨sh, si ++ [p], some (pre i), true⟩ := by
      rw [foldParse_fields ⟨sh, si ++ [p], some ⟨i.item_id, i.status, [], [], [], [], []⟩, false⟩
        ⟨i.item_id, i.status, [], [], [], [], []⟩ i.type i.lang i.source i.note
        (splitlinesPy i.text) rfl rfl ht1 ht2 ht3 ht4 hlines, htext_eq]
      exact rfl
    have hblock : foldParse (⟨sh, si, some (pre p), true⟩ : PState) (itemLines i)
        = some ⟨sh, si ++ [p], some (pre i), true⟩ := by
      rw [itemLines_eq i, foldParse_cons _ _ _ _ s1, foldParse_cons _ _ _ _ s2, s3]
    rw [List.map_cons, List.flatten_cons,
      foldParse_append_some (itemLines i) ((rest.map itemLines).flatten)
        ⟨sh, si, some (pre p), true⟩ ⟨sh, si ++ [p], some (pre i), true⟩ hblock,
      ih i ⟨sh, si ++ [p], some (pre i), true⟩ rfl rfl hchainrest,
      getLastD_cons' i rest p,
      show (p :: i :: rest).dropLast = p :: (i :: rest).dropLast from rfl]
    simp [List.append_assoc]

instance (l : PyStr) : Decidable (textLineOk l) := by
  unfold textLineOk
  infer_instance

instance (f : PyStr) : Decidable (fieldClean f) := by
  unfold fieldClean
  infer_instance

instance (s : PyStr) : Decidable (statusOk s) := by
  unfold statusOk
  infer_instance

instance (t : PyStr) : Decidable (textOkMid t) := by
  unfold textOkMid
  infer_instance

instance (t : PyStr) : Decidable (textOkLast t) := by
  unfold textOkLast
  infer_instance

instance (it : QueueItem) : Decidable (fieldsOk it) := by
  unfold fieldsOk
  infer_instance

instance chainOkDec : ∀ (p : QueueItem) (l : List QueueItem), Decidable (chainOk p l)
  | _, [] => by
      unfold chainOk
      infer_instance
  | _, i :: rest => by
      unfold chainOk
      have := chainOkDec i rest
      infer_instance

instance itemsOkDec : ∀ (l : List QueueItem), Decidable (itemsOk l)
  | [] => by
      unfold itemsOk
      infer_instance
  | _ :: _ => by
      unfold itemsOk
      infer_instance

/-- Every member of a well-formed item list has clean fields and a
carriage-return-free body. -/
theorem itemsOk_mem (items : List QueueItem) (ho : itemsOk items) :
    ∀ i ∈ items, fieldsOk i ∧ (i.text = [] ∨ nlOnly i.text) := by
  cases items with
  | nil =>
    intro i hi
    cases hi
  | cons j rest =>
    intro i hi
    obtain ⟨hfj, hch⟩ := ho
    rcases List.mem_cons.mp hi with rfl | hi2
    · refine ⟨hfj, ?_⟩
      rcases chainOk_self_text rest i hch with h0 | ⟨h1, h3, h4⟩
      · exact Or.inl h0
      · exact Or.inr h3
    · exact chainOk_mem rest j hch i hi2

/-- The last item of a chain satisfies the final-body conditions. -/
theorem chainOk_last : ∀ (items : List QueueItem) (p : QueueItem),
    chainOk p items → textOkLast ((items.getLastD p).text) := by
  intro items
  induction items with
  | nil =>
    intro p hc
    exact hc
  | cons i rest ih =>
    intro p hc
    rw [getLastD_cons' i rest p]
    exact ih i hc.2.2

/-- An item with a final-shape body is unchanged by the pre-merge
reconstruction. -/
theorem pre_last (q : QueueItem) (h : textOkLast q.text) : pre q = q := by
  unfold pre
  exact congrArg (fun t => ({ q with text := t } : QueueItem)) (preText_last q.text h)

/-- Reattaching the defaulted last element recovers the list. -/
theorem dropLast_getLastD : ∀ (rest : List QueueItem) (i : QueueItem),
    (i :: rest).dropLast ++ [rest.getLastD i] = i :: rest := by
  intro rest
  induction rest with
  | nil =>
    intro i
    rfl
  | cons j rest2 ih =>
    intro i
    rw [show (i :: j :: rest2).dropLast = i :: (j :: rest2).dropLast from rfl,
      getLastD_cons' j rest2 i, List.cons_append, ih j]

/-- C1 (amended): for a nonempty header whose lines contain no
line-boundary characters and do not start with `## Item `, and items
whose scalar fields are invariant under `strip()` and free of
line-boundary characters, whose status contains no bracket, whose
bodies contain no line-boundary characters other than `\n` and do not
start with a newline, where every non-final body is empty or
newline-terminated, the final body is empty or not newline-terminated,
and no body line starts with `## Item ` or `text:` — parsing the
rendered file returns the items exactly; the header round-trips only
up to the separator blank line, which joins it whenever at least one
item is rendered. -/
theorem C1_roundtrip (h : List PyStr) (items : List QueueItem) (hh : h ≠ [])
    (hhl : ∀ l ∈ h, lineClean l ∧ markerLine l = false)
    (hitems : itemsOk items) :
    parse_queue_md (render_queue_md h items)
      = some ((if items.isEmpty then h else h ++ [[]]), items) := by
  have hfull := itemsOk_mem items hitems
  have hPne : h ++ (items.map itemLines).flatten ≠ [] := by
    intro hc
    exact hh (List.append_eq_nil.mp hc).1
  have hcleanP : ∀ l ∈ h ++ (items.map itemLines).flatten, lineClean l := by
    intro l hl
    rcases List.mem_append.mp hl with hA | hC
    · exact (hhl l hA).1
    · rcases List.mem_flatten.mp hC with ⟨ls, hls, hlin⟩
      rcases List.mem_map.mp hls with ⟨it, hit, rfl⟩
      exact itemLines_clean it (hfull it hit).1 (hfull it hit).2 l hlin
  have hrl2 : render_queue_lines h items
      = (h ++ (items.map itemLines).flatten) ++ [[]] := by
    rw [render_queue_lines, if_neg (by simpa [List.isEmpty_iff] using hh)]
  have hcontent : splitlinesPy (render_queue_md h items)
      = h ++ (items.map itemLines).flatten := by
    rw [render_queue_md, hrl2,
      joinNl_append (h ++ (items.map itemLines).flatten) [[]] hPne (by simp)]
    exact splitlines_joinNl _ hPne hcleanP
  have hmarks : ∀ l ∈ h, markerLine l = false := fun l hl => (hhl l hl).2
  have hA : foldParse (⟨[], [], none, false⟩ : PState) h
      = some ⟨h, [], none, false⟩ := by
    rw [foldParse_header h ⟨[], [], none, false⟩ rfl hmarks]
    simp
  unfold parse_queue_md
  rw [hcontent]
  unfold parse_queue_lines
  cases items with
  | nil =>
    rw [show ((([] : List QueueItem).map itemLines).flatten) = [] from rfl,
      List.append_nil, hA]
    simp [flushCurrent]
  | cons i rest =>
    obtain ⟨hfi, hch⟩ := hitems
    have hlines : ∀ l ∈ splitlinesPy i.text, textLineOk l := by
      rcases chainOk_self_text rest i hch with h0 | ⟨h1, h3, h4⟩
      · rw [h0]
        intro l hl
        cases hl
      · exact h4
    have htext_eq : (splitlinesPy i.text).foldl accText [] = preText i.text := by
      rcases chainOk_self_text rest i hch with h0 | ⟨h1, h3, h4⟩
      · rw [h0]
        rfl
      · exact foldl_accText_nil i.text h1 h3
    have hfi2 := hfi
    obtain ⟨hst0, ⟨ht1, ht1c⟩, ⟨ht2, ht2c⟩, ⟨ht3, ht3c⟩, ⟨ht4, ht4c⟩⟩ := hfi2
    have s1 : pstep (⟨h, [], none, false⟩ : PState) []
        = some ⟨h ++ [[]], [], none, false⟩ := by
      rw [pstep_header ⟨h, [], none, false⟩ [] rfl (by decide)]
    have s2 : pstep (⟨h ++ [[]], [], none, false⟩ : PState)
        (pys "## Item " ++ (format03d i.item_id
          ++ (' ' :: '[' :: (i.status ++ [']']))))
        = some ⟨h ++ [[]], [], some ⟨i.item_id, i.status, [], [], [], [], []⟩, false⟩ := by
      rw [pstep_marker ⟨h ++ [[]], [], none, false⟩ i hfi]
      exact rfl
    have s3 : foldParse (⟨h ++ [[]], [], some ⟨i.item_id, i.status, [], [], [], [], []⟩, false⟩ : PState)
        ((pys "type: " ++ i.type) :: (pys "lang: " ++ i.lang) :: (pys "source: " ++ i.source)
          :: (pys "note: " ++ i.note) :: pys "text:" :: splitlinesPy i.text)
        = some ⟨h ++ [[]], [], some (pre i), true⟩ := by
      rw [foldParse_fields ⟨h ++ [[]], [], some ⟨i.item_id, i.status, [], [], [], [], []⟩, false⟩
        ⟨i.item_id, i.status, [], [], [], [], []⟩ i.type i.lang i.source i.note
        (splitlinesPy i.text) rfl rfl ht1 ht2 ht3 ht4 hlines, htext_eq]
      exact rfl
    have hblock : foldParse (⟨h, [], none, false⟩ : PState) (itemLines i)
        = some ⟨h ++ [[]], [], some (pre i), true⟩ := by
      rw [itemLines_eq i, foldParse_cons _ _ _ _ s1, foldParse_cons _ _ _ _ s2, s3]
    have hfold : foldParse (⟨[], [], none, false⟩ : PState)
        (h ++ (((i :: rest).map itemLines).flatten))
        = some ⟨h ++ [[]], (i :: rest).dropLast,
                some (pre (rest.getLastD i)), true⟩ := by
      rw [List.map_cons, List.flatten_cons,
        foldParse_append_some h _ ⟨[], [], none, false⟩ ⟨h, [], none, false⟩ hA,
        foldParse_append_some (itemLines i) _ ⟨h, [], none, false⟩
          ⟨h ++ [[]], [], some (pre i), true⟩ hblock,
        foldParse_chain rest i ⟨h ++ [[]], [], some (pre i), true⟩ rfl rfl hch]
      exact rfl
    rw [hfold]
    have hpre : pre (rest.getLastD i) = rest.getLastD i :=
      pre_last _ (chainOk_last rest i hch)
    have hdg : (i :: rest).dropLast ++ [rest.getLastD i] = i :: rest :=
      dropLast_getLastD rest i
    simp only [List.getLastD_eq_getLast?] at hpre hdg
    simp [flushCurrent, hpre, hdg]

/-- C1 counterexample: the spec's unconditional round-trip
`parse(render(h, items)) = (h, items)` already fails at the empty
header and empty item list, where rendering inserts the default header
line `# X Queue` that parsing then returns as a one-line header. -/
theorem C1_roundtrip_counterexample :
    parse_queue_md (render_queue_md [] []) ≠ some ([], []) := by
  decide

/-- Concrete instance of C1: a one-line header with two well-formed
items round-trips, the header gaining the separator blank line. -/
theorem C1_roundtrip_witness :
    ([pys "# X Queue"] : List PyStr) ≠ [] ∧
    (∀ l ∈ ([pys "# X Queue"] : List PyStr), lineClean l ∧ markerLine l = false) ∧
    itemsOk [⟨1, pys "pending", pys "github_trending", pys "zh", pys "https://e.com", pys "a note", pys "line one\nline two\n"⟩,
             ⟨2, pys "drafted", pys "manual", pys "en", pys "src", pys "n2", pys "solo body"⟩] ∧
    parse_queue_md (render_queue_md [pys "# X Queue"]
      [⟨1, pys "pending", pys "github_trending", pys "zh", pys "https://e.com", pys "a note", pys "line one\nline two\n"⟩,
       ⟨2, pys "drafted", pys "manual", pys "en", pys "src", pys "n2", pys "solo body"⟩])
      = some ([pys "# X Queue", []],
          [⟨1, pys "pending", pys "github_trending", pys "zh", pys "https://e.com", pys "a note", pys "line one\nline two\n"⟩,
           ⟨2, pys "drafted", pys "manual", pys "en", pys "src", pys "n2", pys "solo body"⟩]) :=
  ⟨by decide, by decide, by decide,
    C1_roundtrip [pys "# X Queue"]
      [⟨1, pys "pending", pys "github_trending", pys "zh", pys "https://e.com", pys "a note", pys "line one\nline two\n"⟩,
       ⟨2, pys "drafted", pys "manual", pys "en", pys "src", pys "n2", pys "solo body"⟩]
      (by decide) (by decide) (by decide)⟩
